import Mathlib

/-!
# Plaintext output plugin (`plugin/plaintext/text_out.go`)

A shallow embedding of the plaintext CIDR writer: configuration
normalisation (`newTextOut`), record selection and emission (`Output`),
address-family filtering (`marshalText`) and line formatting plus file
emission (`writeFile`).

Go strings are embedded as Lean `String`s (valid UTF-8) and the standard-library
primitives the plugin calls are embedded on the character list.  The case
tables of Go's `unicode` package are a parameter of the development.  Go's
`error` is a `String` message.
-/

set_option autoImplicit false

namespace Plaintext

/-! ## Go standard-library primitives used by the plugin -/

/-- Go `unicode.IsSpace`: the Latin-1 spaces (tab, newline, vertical tab, form
feed, carriage return, space, NEL, NBSP) and the other code points with the
Unicode White_Space property. -/
def isSpace (c : Char) : Bool :=
  let n := c.toNat
  (9 ≤ n && n ≤ 13) || n == 32 || n == 0x85 || n == 0xA0 || n == 0x1680 ||
    (0x2000 ≤ n && n ≤ 0x200A) || n == 0x2028 || n == 0x2029 || n == 0x202F ||
    n == 0x205F || n == 0x3000

/-- Trimming on the character list: drop the leading white space, then the
trailing white space. -/
def trimList (l : List Char) : List Char := (l.dropWhile isSpace).rdropWhile isSpace

/-- Go `strings.TrimSpace`: drop the leading and the trailing white space. -/
def TrimSpace (s : String) : String := ⟨trimList s.data⟩

/-- The case tables of Go's `unicode` package: the rune mappings
`unicode.ToUpper` and `unicode.ToLower` (the Unicode simple case mappings).  The
tables are not part of the sources, so they are a parameter: every definition
and theorem that goes through them holds for whatever the tables are. -/
structure CaseTables where
  toUpper : Char → Char
  toLower : Char → Char

/-- Go `strings.ToUpper`: every rune is mapped by `unicode.ToUpper`. -/
def ToUpper (cm : CaseTables) (s : String) : String := ⟨s.data.map cm.toUpper⟩

/-- Go `strings.ToLower`: every rune is mapped by `unicode.ToLower`. -/
def ToLower (cm : CaseTables) (s : String) : String := ⟨s.data.map cm.toLower⟩

/-- Lexicographic comparison of two character sequences by code point; on valid
UTF-8 this is the byte-wise order Go uses to compare strings. -/
def lexLE : List Char → List Char → Bool
  | [], _ => true
  | _ :: _, [] => false
  | a :: as, b :: bs =>
    if a.toNat < b.toNat then true
    else if b.toNat < a.toNat then false
    else lexLE as bs

/-- Go's `a <= b` on strings. -/
def strLE (a b : String) : Prop := lexLE a.data b.data = true

instance : DecidableRel strLE := fun a b => inferInstanceAs (Decidable (lexLE a.data b.data = true))

/-- Go `slices.Sort` on a `[]string`: the ascending rearrangement of the slice.
The order is total and antisymmetric, so the sorted result does not depend on
the sorting algorithm; insertion sort computes it here. -/
def slicesSort (l : List String) : List String := l.insertionSort strLE

/-- The elements of a path: the pieces between the separators. -/
def splitSep : List Char → List (List Char)
  | [] => [[]]
  | c :: cs =>
    if c = '/' then [] :: splitSep cs
    else
      match splitSep cs with
      | [] => [[c]]
      | e :: es => (c :: e) :: es

/-- One step of the loop of `filepath.Clean` on the elements written so far
(`out`, last element first): an empty element and a `.` element are skipped; a
`..` element removes the last element written when there is one to backtrack
over, is dropped at the root, and is written otherwise; any other element is
written. -/
def cleanStep (rooted : Bool) (out : List (List Char)) (elem : List Char) : List (List Char) :=
  if elem = [] then out
  else if elem = ['.'] then out
  else if elem = ['.', '.'] then
    match out with
    | [] => if rooted then out else elem :: out
    | top :: below =>
      if top = ['.', '.'] then (if rooted then out else elem :: out) else below
  else elem :: out

/-- Go `filepath.Clean` (slash-separated paths): the shortest path naming the
same file by lexical processing; the empty path becomes `.`. -/
def Clean (path : String) : String :=
  if path = "" then "."
  else
    let rooted : Bool := path.data.head? = some '/'
    let out := (splitSep path.data).foldl (cleanStep rooted) []
    let body : List Char := List.intercalate ['/'] out.reverse
    if rooted then ⟨'/' :: body⟩
    else if body = [] then "."
    else ⟨body⟩

/-- Go `filepath.Join`: the elements from the first non-empty one on, joined by
the separator and cleaned; the empty string when every element is empty. -/
def filepathJoin : List String → String
  | [] => ""
  | e :: rest =>
    if e ≠ "" then Clean (String.intercalate "/" (e :: rest))
    else filepathJoin rest

/-- A file system, keyed by cleaned paths: which paths are directories, the
content of every regular file, and the paths on which creating or writing is
refused by the system (permissions, read-only mounts). -/
structure FileSystem where
  isDir : String → Bool
  file : String → Option String
  denied : String → Bool

/-- Go `os.MkdirAll`: fails on the empty path; succeeds without change when the
directory the path names already exists; fails when that path is a regular
file or when creation is refused; otherwise creates the directory (the missing
parents it creates on the way are not tracked). -/
def MkdirAll (fs : FileSystem) (path : String) : Except String FileSystem :=
  if path = "" then .error "mkdir : no such file or directory"
  else if fs.isDir (Clean path) then .ok fs
  else if (fs.file (Clean path)).isSome then .error ("mkdir " ++ path ++ ": not a directory")
  else if fs.denied (Clean path) then .error ("mkdir " ++ path ++ ": permission denied")
  else .ok { fs with isDir := fun p => if p = Clean path then true else fs.isDir p }

/-- Go `os.WriteFile`, on a cleaned path (the plugin passes what `filepath.Join`
returns): fails when the path is a directory or writing is refused, leaving
the file system as it was; otherwise creates the file or truncates it, and
writes the data. -/
def WriteFile (fs : FileSystem) (path data : String) : Except String FileSystem :=
  if fs.isDir path then .error ("open " ++ path ++ ": is a directory")
  else if fs.denied path then .error ("open " ++ path ++ ": permission denied")
  else .ok { fs with file := fun p => if p = path then some data else fs.file p }

/-- One line of the process log (`log.Printf`): the "entry not found" line of
`Output` and the success line of `writeFile`, with the values they print. -/
inductive LogLine where
  | notFound (name : String)
  | written (type filename outputDir : String)
  deriving DecidableEq, Repr

/-- What a run acts on: the file system and the log written so far. -/
structure World where
  fs : FileSystem
  log : List LogLine

/-! ## The host library `lib` -/

/-- Modelled from the spec: `lib.IPType`, the address-family filter of the
configuration, is missing from the sources; the spec gives it the values v4, v6
and unset. -/
inductive IPType where
  | unset
  | IPv4
  | IPv6
  deriving DecidableEq, Repr

/-- Modelled from the spec: the options `lib.IgnoreIPv4` and `lib.IgnoreIPv6`
passed to `Entry.MarshalText` are missing from the sources. -/
inductive IgnoreIPOption where
  | IgnoreIPv4
  | IgnoreIPv6
  deriving DecidableEq, Repr

/-- Modelled from the spec: `lib.Action`, an opaque tag forwarded to the host,
is missing from the sources. -/
abbrev Action := String

/-- Modelled from the spec: an address prefix of a record (missing from the
sources), tagged with its address family and carrying its CIDR text. -/
structure Prefix where
  isIPv6 : Bool
  cidr : String
  deriving DecidableEq, Repr

instance {ε α : Type} [DecidableEq ε] [DecidableEq α] : DecidableEq (Except ε α) := fun a b =>
  match a, b with
  | .ok x, .ok y =>
    if h : x = y then isTrue (by rw [h]) else isFalse (fun e => h (by cases e; rfl))
  | .error x, .error y =>
    if h : x = y then isTrue (by rw [h]) else isFalse (fun e => h (by cases e; rfl))
  | .ok _, .error _ => isFalse (fun e => by cases e)
  | .error _, .ok _ => isFalse (fun e => by cases e)

/-- Modelled from the spec: `lib.Entry` is missing from the sources.  A record
is a name and an ordered list of address prefixes; the prefix data is either
available or surfaces the error the record-to-text conversion fails with. -/
structure Entry where
  name : String
  prefixes : Except String (List Prefix)
  deriving DecidableEq

/-- Modelled from the spec: `Entry.GetName` is missing from the sources. -/
def Entry.GetName (e : Entry) : String := e.name

/-- Modelled from the spec: whether an option excludes a prefix; `IgnoreIPv4`
excludes the IPv4 prefixes and `IgnoreIPv6` the IPv6 ones. -/
def IgnoreIPOption.drops : IgnoreIPOption → Prefix → Bool
  | .IgnoreIPv4, p => !p.isIPv6
  | .IgnoreIPv6, p => p.isIPv6

/-- Modelled from the spec: `Entry.MarshalText` is missing from the sources.
It yields the CIDR strings of the record's prefixes in the record's native
order, leaving out the family an option excludes; a record with no prefix left
yields the empty sequence; malformed prefix data yields the error. -/
def Entry.MarshalText (e : Entry) (opt : Option IgnoreIPOption) : Except String (List String) :=
  match e.prefixes with
  | .error err => .error err
  | .ok ps =>
    match opt with
    | none => .ok (ps.map Prefix.cidr)
    | some o => .ok ((ps.filter fun p => !o.drops p).map Prefix.cidr)

/-- Modelled from the spec: `lib.Container` is missing from the sources.  A
record collection is given by the records in the order its enumeration yields
them; it is a mapping when the names are pairwise distinct. -/
abbrev Container := List Entry

/-- Modelled from the spec: `Container.Loop` is missing from the sources; it
enumerates the records. -/
def Container.Loop (c : Container) : List Entry := c

/-- Modelled from the spec: `Container.GetEntry` is missing from the sources;
point lookup by name, exact match. -/
def Container.GetEntry (c : Container) (name : String) : Option Entry :=
  c.find? fun e => e.name == name

/-- The names of a collection, in enumeration order. -/
def Container.names (c : Container) : List String := c.Loop.map Entry.GetName

/-! ## The plugin -/

def typeTextOut : String := "text"

def descTextOut : String := "Convert data to plaintext CIDR format"

def defaultOutputDir : String := filepathJoin ["./", "output", "text"]

/-- The converter object (`Typ` is the field `Type`, a reserved word here). -/
structure textOut where
  Typ : String
  Action : Plaintext.Action
  Description : String
  OutputDir : String
  Want : List String
  OnlyIPType : IPType
  AddPrefixInLine : String
  AddSuffixInLine : String
  deriving DecidableEq, Repr

/-- The local struct `tmp` of `newTextOut`, the shape the payload decodes to. -/
structure RawConfig where
  OutputDir : String := ""
  Want : List String := []
  OnlyIPType : IPType := .unset
  AddPrefixInLine : String := ""
  AddSuffixInLine : String := ""
  deriving DecidableEq, Repr

/-- The configuration payload, by what decoding it does: empty (`len(data)`
is 0), rejected by `json.Unmarshal` with an error, or decoded into `tmp`. -/
inductive RawMessage where
  | empty
  | malformed (err : String)
  | decoded (tmp : RawConfig)

/-- The loop "Filter want list" of `newTextOut`. -/
def filterWant (cm : CaseTables) : List String → List String
  | [] => []
  | want :: rest =>
    let want := ToUpper cm (TrimSpace want)
    if want ≠ "" then want :: filterWant cm rest else filterWant cm rest

/-- Embedding of `newTextOut`. -/
def newTextOut (cm : CaseTables) (action : Action) (data : RawMessage) : Except String textOut :=
  let decoded : Except String RawConfig :=
    match data with
    | .empty => .ok {}
    | .malformed err => .error err
    | .decoded tmp => .ok tmp
  match decoded with
  | .error err => .error err
  | .ok tmp =>
    let outputDir := if tmp.OutputDir = "" then defaultOutputDir else tmp.OutputDir
    .ok { Typ := typeTextOut
          Action := action
          Description := descTextOut
          OutputDir := outputDir
          Want := filterWant cm tmp.Want
          OnlyIPType := tmp.OnlyIPType
          AddPrefixInLine := tmp.AddPrefixInLine
          AddSuffixInLine := tmp.AddSuffixInLine }

/-- Embedding of `textOut.marshalText`. -/
def textOut.marshalText (t : textOut) (entry : Entry) : Except String (List String) :=
  match t.OnlyIPType with
  | .IPv4 =>
    match entry.MarshalText (some .IgnoreIPv6) with
    | .error err => .error err
    | .ok entryCidr => .ok entryCidr
  | .IPv6 =>
    match entry.MarshalText (some .IgnoreIPv4) with
    | .error err => .error err
    | .ok entryCidr => .ok entryCidr
  | _ =>
    match entry.MarshalText none with
    | .error err => .error err
    | .ok entryCidr => .ok entryCidr

/-- The buffer loop of `writeFile`: the bytes accumulated for a CIDR list,
starting from the buffer content `buf`. -/
def textOut.fillBuffer (t : textOut) (buf : String) : List String → String
  | [] => buf
  | cidr :: rest =>
    let buf := if t.AddPrefixInLine ≠ "" then buf ++ t.AddPrefixInLine else buf
    let buf := buf ++ cidr
    let buf := if t.AddSuffixInLine ≠ "" then buf ++ t.AddSuffixInLine else buf
    let buf := buf ++ "\n"
    t.fillBuffer buf rest

/-- Embedding of `textOut.writeFile`: the new world and the error returned
(`none` for `nil`). -/
def textOut.writeFile (t : textOut) (filename : String) (cidrList : List String) (w : World) :
    World × Option String :=
  let cidrBytes := t.fillBuffer "" cidrList
  match MkdirAll w.fs t.OutputDir with
  | .error err => (w, some err)
  | .ok fs1 =>
    match WriteFile fs1 (filepathJoin [t.OutputDir, filename]) cidrBytes with
    | .error err => ({ w with fs := fs1 }, some err)
    | .ok fs2 =>
      ({ fs := fs2, log := w.log ++ [.written t.Typ filename t.OutputDir] }, none)

/-- The `for _, name := range list` loop of `Output`; both branches of the
switch run the same loop body, over `list` and over `t.Want`. -/
def textOut.outputLoop (t : textOut) (cm : CaseTables) (container : Container) :
    List String → World → World × Option String
  | [], w => (w, none)
  | name :: rest, w =>
    match container.GetEntry name with
    | none => t.outputLoop cm container rest { w with log := w.log ++ [.notFound name] }
    | some entry =>
      match t.marshalText entry with
      | .error err => (w, some err)
      | .ok cidrList =>
        let filename := ToLower cm entry.GetName ++ ".txt"
        match t.writeFile filename cidrList w with
        | (w1, some err) => (w1, some err)
        | (w1, none) => t.outputLoop cm container rest w1

/-- Embedding of `textOut.Output`: the converter after the run (the receiver
is a pointer, and `slices.Sort(t.Want)` sorts its slice in place), the world
after the run and the error returned (`none` for `nil`). -/
def textOut.Output (t : textOut) (cm : CaseTables) (container : Container) (w : World) :
    textOut × World × Option String :=
  match t.Want with
  | [] =>
    let list := container.Loop.map Entry.GetName
    let list := slicesSort list
    (t, t.outputLoop cm container list w)
  | _ :: _ =>
    let t1 := { t with Want := slicesSort t.Want }
    (t1, t1.outputLoop cm container t1.Want w)

/-! ## Specification-side definitions -/

/-- The line the spec prescribes for one CIDR: prefix string, CIDR string,
suffix string, one newline. -/
def textOut.specLine (t : textOut) (cidr : String) : String :=
  t.AddPrefixInLine ++ cidr ++ t.AddSuffixInLine ++ "\n"

/-- The spec's stripping of a line: remove as many characters as the prefix has
from the start, and as many as the suffix plus the newline have from the end. -/
def stripLine (pfx sfx line : String) : String :=
  ⟨(line.data.drop pfx.length).rdrop (sfx.length + 1)⟩

/-- The want-list the spec prescribes: the entries whose trimmed form is not
empty, trimmed and upper-cased, in input order. -/
def normalizedWant (cm : CaseTables) (raw : List String) : List String :=
  (raw.filter fun w => decide (TrimSpace w ≠ "")).map fun w => ToUpper cm (TrimSpace w)

/-- The file names of the success lines of a log, in log order. -/
def writtenFiles : List LogLine → List String
  | [] => []
  | .written _ filename _ :: rest => filename :: writtenFiles rest
  | .notFound _ :: rest => writtenFiles rest

/-- The path `writeFile` writes for a record. -/
def textOut.target (t : textOut) (cm : CaseTables) (entry : Entry) : String :=
  filepathJoin [t.OutputDir, ToLower cm entry.GetName ++ ".txt"]

/-- The log line the loop of `Output` emits for a name on a run that does not
stop at that name. -/
def textOut.event (t : textOut) (cm : CaseTables) (c : Container) (name : String) : LogLine :=
  match c.GetEntry name with
  | none => .notFound name
  | some entry => .written t.Typ (ToLower cm entry.GetName ++ ".txt") t.OutputDir

/-- The writes (path and body) the loop of `Output` performs for a list of
names whose records all convert to text. -/
def textOut.writes (t : textOut) (cm : CaseTables) (c : Container) :
    List String → List (String × String)
  | [] => []
  | name :: rest =>
    match c.GetEntry name with
    | none => t.writes cm c rest
    | some entry =>
      match t.marshalText entry with
      | .error _ => t.writes cm c rest
      | .ok cidrList => (t.target cm entry, t.fillBuffer "" cidrList) :: t.writes cm c rest

/-- The file contents after a sequence of writes, the later write winning. -/
def applyWrites : List (String × String) → (String → Option String) → String → Option String
  | [], f => f
  | (path, body) :: rest, f => applyWrites rest (fun p => if p = path then some body else f p)

/-- The names a run of `Output` goes through, before sorting: every name of the
collection when the want-list is empty, else the want-list. -/
def textOut.selected (t : textOut) (c : Container) : List String :=
  if t.Want = [] then c.names else t.Want

/-! ## Scenario data -/

/-- A sample of the case tables: the ASCII letters, the pair é / É, and the
Kelvin sign U+212A, which lower-cases to k. -/
def sampleTables : CaseTables where
  toUpper c := if c = 'é' then 'É' else Char.toUpper c
  toLower c := if c = 'É' then 'é' else if c = Char.ofNat 0x212A then 'k' else Char.toLower c

/-- An empty file system on which nothing is refused. -/
def emptyFS : FileSystem :=
  { isDir := fun _ => false, file := fun _ => none, denied := fun _ => false }

/-- The empty world. -/
def emptyWorld : World := { fs := emptyFS, log := [] }

/-- The collection of the scenarios: US with one prefix, CN with two. -/
def sampleContainer : Container :=
  [ { name := "US", prefixes := .ok [⟨false, "1.1.1.0/24"⟩] },
    { name := "CN", prefixes := .ok [⟨false, "2.2.2.0/24"⟩, ⟨true, "fd00::/8"⟩] } ]

/-- A converter built from a decoded payload with the default directory "out". -/
def sampleOut (want : List String) (only : IPType) (pre suf : String) : textOut :=
  { Typ := typeTextOut, Action := "output", Description := descTextOut, OutputDir := "out",
    Want := want, OnlyIPType := only, AddPrefixInLine := pre, AddSuffixInLine := suf }

/-- A collection with the records K and Kelvin sign, whose lower-cased names
coincide. -/
def kelvinContainer : Container :=
  [ { name := "K", prefixes := .ok [⟨false, "1.1.1.0/24"⟩] },
    { name := ⟨[Char.ofNat 0x212A]⟩, prefixes := .ok [⟨false, "2.2.2.0/24"⟩] } ]

/-- A collection with the record É and a record whose name climbs out of the
output directory. -/
def oddContainer : Container :=
  [ { name := "É", prefixes := .ok [⟨false, "3.3.3.0/24"⟩] },
    { name := "../ESC", prefixes := .ok [⟨false, "4.4.4.0/24"⟩] } ]

/-- A world in which `out` is a directory and `out/us.txt` holds old content. -/
def oldWorld : World :=
  { fs := { isDir := fun p => p = "out",
            file := fun p => if p = "out/us.txt" then some "OLD\n" else none,
            denied := fun _ => false },
    log := [] }

/-- A collection whose record B surfaces malformed prefix data. -/
def failingContainer : Container :=
  [ { name := "C", prefixes := .ok [⟨false, "3.3.3.0/24"⟩] },
    { name := "B", prefixes := .error "malformed prefix" },
    { name := "A", prefixes := .ok [⟨false, "1.1.1.0/24"⟩] } ]

variable {cm : CaseTables}

/-! ## The string order and `slices.Sort` -/

theorem lexLE_total : ∀ a b : List Char, lexLE a b = true ∨ lexLE b a = true
  | [], _ => Or.inl (by simp [lexLE])
  | _ :: _, [] => Or.inr (by simp [lexLE])
  | a :: as, b :: bs => by
    simp only [lexLE]
    rcases Nat.lt_trichotomy a.toNat b.toNat with h | h | h
    · simp [h]
    · simp [h, lexLE_total as bs]
    · simp [h]

theorem lexLE_antisymm : ∀ a b : List Char, lexLE a b = true → lexLE b a = true → a = b
  | [], [] => fun _ _ => rfl
  | [], _ :: _ => fun _ h => by simp [lexLE] at h
  | _ :: _, [] => fun h _ => by simp [lexLE] at h
  | a :: as, b :: bs => by
    simp only [lexLE]
    intro h1 h2
    rcases Nat.lt_trichotomy a.toNat b.toNat with h | h | h
    · have h3 : ¬ b.toNat < a.toNat := by omega
      simp [h, h3] at h2
    · have hab : a = b := by rw [← Char.ofNat_toNat a, ← Char.ofNat_toNat b, h]
      simp only [h, lt_self_iff_false, if_false] at h1 h2
      rw [hab, lexLE_antisymm as bs h1 h2]
    · have h3 : ¬ a.toNat < b.toNat := by omega
      simp [h, h3] at h1

theorem lexLE_trans : ∀ a b c : List Char, lexLE a b = true → lexLE b c = true → lexLE a c = true
  | [], _, _ => fun _ _ => by simp [lexLE]
  | _ :: _, [], _ => fun h _ => by simp [lexLE] at h
  | _ :: _, _ :: _, [] => fun _ h => by simp [lexLE] at h
  | a :: as, b :: bs, c :: cs => by
    simp only [lexLE]
    intro h1 h2
    by_cases hab : a.toNat < b.toNat
    · by_cases hbc : b.toNat < c.toNat
      · have : a.toNat < c.toNat := by omega
        simp [this]
      · by_cases hcb : c.toNat < b.toNat
        · simp [hbc, hcb] at h2
        · have : a.toNat < c.toNat := by omega
          simp [this]
    · by_cases hba : b.toNat < a.toNat
      · simp [hab, hba] at h1
      · simp only [hab, hba, if_false] at h1
        by_cases hbc : b.toNat < c.toNat
        · have : a.toNat < c.toNat := by omega
          simp [this]
        · by_cases hcb : c.toNat < b.toNat
          · simp [hbc, hcb] at h2
          · simp only [hbc, hcb, if_false] at h2
            have h3 : ¬ a.toNat < c.toNat := by omega
            have h4 : ¬ c.toNat < a.toNat := by omega
            simp only [h3, h4, if_false]
            exact lexLE_trans as bs cs h1 h2

instance : IsTotal String strLE := ⟨fun a b => lexLE_total a.data b.data⟩

instance : IsTrans String strLE := ⟨fun a b c => lexLE_trans a.data b.data c.data⟩

instance : IsAntisymm String strLE :=
  ⟨fun a b h1 h2 => String.ext (lexLE_antisymm a.data b.data h1 h2)⟩

theorem slicesSort_sorted (l : List String) : (slicesSort l).Sorted strLE :=
  List.sorted_insertionSort strLE l

theorem slicesSort_perm (l : List String) : (slicesSort l).Perm l :=
  List.perm_insertionSort strLE l

theorem slicesSort_eq_of_perm {l₁ l₂ : List String} (h : l₁.Perm l₂) :
    slicesSort l₁ = slicesSort l₂ :=
  List.eq_of_perm_of_sorted
    (((slicesSort_perm l₁).trans h).trans (slicesSort_perm l₂).symm)
    (slicesSort_sorted l₁) (slicesSort_sorted l₂)

theorem slicesSort_idem (l : List String) : slicesSort (slicesSort l) = slicesSort l :=
  List.eq_of_perm_of_sorted (slicesSort_perm _) (slicesSort_sorted _) (slicesSort_sorted l)

theorem mem_slicesSort {l : List String} {x : String} : x ∈ slicesSort l ↔ x ∈ l :=
  (slicesSort_perm l).mem_iff

/-! ## Case mapping and trimming -/

theorem ToUpper_eq_empty (cm : CaseTables) (s : String) : ToUpper cm s = "" ↔ s = "" := by
  constructor
  · intro h
    have hd : (ToUpper cm s).data = [] := by rw [h]
    simp only [ToUpper, List.map_eq_nil_iff] at hd
    exact String.ext hd
  · rintro rfl
    rfl

theorem ToUpper_idem (cm : CaseTables)
    (h : ∀ c, cm.toUpper (cm.toUpper c) = cm.toUpper c) (s : String) :
    ToUpper cm (ToUpper cm s) = ToUpper cm s := by
  apply String.ext
  simp only [ToUpper, List.map_map]
  exact List.map_congr_left fun c _ => h c

theorem TrimSpace_data (s : String) : (TrimSpace s).data = trimList s.data := rfl

theorem trimList_head (l : List Char) (c : Char) (h : (trimList l).head? = some c) :
    isSpace c = false := by
  obtain ⟨t, ht⟩ : trimList l <+: l.dropWhile isSpace :=
    List.rdropWhile_prefix isSpace (l.dropWhile isSpace)
  have h1 := List.head?_dropWhile_not isSpace l
  cases hr : trimList l with
  | nil => rw [hr] at h; simp at h
  | cons x r =>
    rw [hr] at h ht
    simp only [List.head?_cons, Option.some.injEq] at h
    rw [← ht] at h1
    simp only [List.cons_append, List.head?_cons] at h1
    subst h
    simpa using h1

theorem trimList_last (l : List Char) (c : Char) (h : (trimList l).getLast? = some c) :
    isSpace c = false := by
  have hne : trimList l ≠ [] := by
    intro h0
    rw [h0] at h
    simp at h
  have h1 := List.rdropWhile_last_not isSpace (l.dropWhile isSpace) hne
  rw [List.getLast?_eq_getLast _ hne] at h
  simp only [Option.some.injEq] at h
  rw [← h]
  simpa [trimList] using h1

/-- A character list that neither starts nor ends with white space is left as
it is by trimming. -/
theorem trimList_of_ends (l : List Char) (hh : ∀ c, l.head? = some c → isSpace c = false)
    (hl : ∀ c, l.getLast? = some c → isSpace c = false) : trimList l = l := by
  have hd : l.dropWhile isSpace = l := by
    cases l with
    | nil => rfl
    | cons x r =>
      have hx := hh x rfl
      rw [List.dropWhile_cons_of_neg (by simp [hx])]
  unfold trimList
  rw [hd, List.rdropWhile_eq_self_iff]
  intro hne
  have := hl (l.getLast hne) (List.getLast?_eq_getLast _ hne)
  simp [this]

theorem trimList_idem (l : List Char) : trimList (trimList l) = trimList l :=
  trimList_of_ends _ (trimList_head l) (trimList_last l)

theorem TrimSpace_idem (s : String) : TrimSpace (TrimSpace s) = TrimSpace s :=
  String.ext (trimList_idem s.data)

/-- Upper-casing a trimmed string leaves it trimmed, when upper-casing never
turns a character into white space. -/
theorem TrimSpace_ToUpper (cm : CaseTables)
    (hsp : ∀ c, isSpace c = false → isSpace (cm.toUpper c) = false) (s : String) :
    TrimSpace (ToUpper cm (TrimSpace s)) = ToUpper cm (TrimSpace s) := by
  apply String.ext
  show trimList ((trimList s.data).map cm.toUpper) = (trimList s.data).map cm.toUpper
  apply trimList_of_ends
  · intro c hc
    cases hr : trimList s.data with
    | nil => rw [hr] at hc; simp at hc
    | cons x r =>
      rw [hr] at hc
      simp only [List.map_cons, List.head?_cons, Option.some.injEq] at hc
      rw [← hc]
      exact hsp x (trimList_head s.data x (by rw [hr]; rfl))
  · intro c hc
    rw [List.getLast?_eq_head?_reverse, ← List.map_reverse] at hc
    cases hr : (trimList s.data).reverse with
    | nil => rw [hr] at hc; simp at hc
    | cons x r =>
      rw [hr] at hc
      simp only [List.map_cons, List.head?_cons, Option.some.injEq] at hc
      rw [← hc]
      apply hsp x
      apply trimList_last s.data x
      rw [List.getLast?_eq_head?_reverse, hr]
      rfl

theorem filterWant_eq (cm : CaseTables) (l : List String) :
    filterWant cm l = normalizedWant cm l := by
  unfold normalizedWant
  induction l with
  | nil => rfl
  | cons w rest ih =>
    by_cases h : TrimSpace w = ""
    · have hu : ToUpper cm (TrimSpace w) = "" := (ToUpper_eq_empty cm _).2 h
      have he : ToUpper cm "" = "" := rfl
      simp [filterWant, h, he, ih]
    · have hu : ToUpper cm (TrimSpace w) ≠ "" := fun hu => h ((ToUpper_eq_empty cm _).1 hu)
      simp [filterWant, h, hu, ih]

/-! ### The sample tables -/

theorem toNat_ofNat_small (n : Nat) (h : n < 0xd800) : (Char.ofNat n).toNat = n := by
  have hv : n.isValidChar := Or.inl h
  simp only [Char.ofNat, hv, dif_pos, Char.ofNatAux, Char.toNat]
  rfl

theorem toUpper_cases (c : Char) :
    (c.toUpper = c ∧ ¬ (97 ≤ c.toNat ∧ c.toNat ≤ 122)) ∨
    (65 ≤ c.toUpper.toNat ∧ c.toUpper.toNat ≤ 90 ∧ 97 ≤ c.toNat ∧ c.toNat ≤ 122) := by
  by_cases h : c.toNat ≥ 97 ∧ c.toNat ≤ 122
  · right
    have hu : c.toUpper = Char.ofNat (c.toNat - 32) := by
      unfold Char.toUpper
      exact if_pos h
    rw [hu, toNat_ofNat_small _ (by omega)]
    omega
  · left
    have hu : c.toUpper = c := by
      unfold Char.toUpper
      exact if_neg h
    exact ⟨hu, h⟩

theorem toUpper_idem (c : Char) : c.toUpper.toUpper = c.toUpper := by
  rcases toUpper_cases c with ⟨h, _⟩ | ⟨h1, h2, _, _⟩
  · rw [h, h]
  · rcases toUpper_cases c.toUpper with ⟨h, _⟩ | ⟨_, _, h3, h4⟩
    · exact h
    · omega

theorem isSpace_eq_false_of_letter (c : Char) (h : 65 ≤ c.toNat ∧ c.toNat ≤ 122) :
    isSpace c = false := by
  simp only [isSpace, Bool.or_eq_false_iff, Bool.and_eq_false_iff, decide_eq_false_iff_not,
    beq_eq_false_iff_ne]
  omega

theorem isSpace_toUpper (c : Char) : isSpace c.toUpper = isSpace c := by
  rcases toUpper_cases c with ⟨h, _⟩ | ⟨h1, h2, h3, h4⟩
  · rw [h]
  · rw [isSpace_eq_false_of_letter _ (by omega), isSpace_eq_false_of_letter _ (by omega)]

theorem toUpper_ne_eacute (c : Char) (h : c ≠ 'é') : c.toUpper ≠ 'é' := by
  rcases toUpper_cases c with ⟨h1, _⟩ | ⟨h1, h2, _, _⟩
  · rw [h1]
    exact h
  · intro he
    rw [he] at h1 h2
    have : ('é' : Char).toNat = 233 := rfl
    omega

/-- The upper-case table of the sample maps its own values to themselves. -/
theorem sampleTables_toUpper_idem (c : Char) :
    sampleTables.toUpper (sampleTables.toUpper c) = sampleTables.toUpper c := by
  show (if (if c = 'é' then 'É' else c.toUpper) = 'é' then 'É'
      else (if c = 'é' then 'É' else c.toUpper).toUpper) = (if c = 'é' then 'É' else c.toUpper)
  by_cases h : c = 'é'
  · simp only [h, if_true]
    decide
  · simp only [h, if_false, toUpper_ne_eacute c h, toUpper_idem]

/-- The upper-case table of the sample never yields white space from a
character that is not white space. -/
theorem sampleTables_toUpper_space (c : Char) (hc : isSpace c = false) :
    isSpace (sampleTables.toUpper c) = false := by
  show isSpace (if c = 'é' then 'É' else c.toUpper) = false
  by_cases h : c = 'é'
  · simp only [h, if_true]
    decide
  · simp only [h, if_false, isSpace_toUpper, hc]

/-! ## Normalising the want-list (`newTextOut`) -/

/-- C5: `newTextOut` returns the converter whose want-list is the list of the
upper-cased, trimmed images of the entries whose trimmed form is non-empty, in
input order and with duplicates kept (an empty payload gives the empty
want-list).  Every element of it is non-empty and is the upper-cased image of a
string; it is fixed by upper-casing when the table `unicode.ToUpper` fixes its
own values, and it is fixed by trimming, with no white space at either end,
when that table never turns a character into white space. -/
theorem newTextOut_want_normalized (cm : CaseTables) (action : Action) (tmp : RawConfig) :
    (∃ t₀ : textOut, newTextOut cm action .empty = .ok t₀ ∧ t₀.Want = []) ∧
    newTextOut cm action (.decoded tmp)
      = .ok { Typ := typeTextOut, Action := action, Description := descTextOut,
              OutputDir := if tmp.OutputDir = "" then defaultOutputDir else tmp.OutputDir,
              Want := (tmp.Want.filter fun w => decide (TrimSpace w ≠ "")).map
                fun w => ToUpper cm (TrimSpace w),
              OnlyIPType := tmp.OnlyIPType, AddPrefixInLine := tmp.AddPrefixInLine,
              AddSuffixInLine := tmp.AddSuffixInLine } ∧
    (∀ x ∈ normalizedWant cm tmp.Want, x ≠ "" ∧ ∃ y, x = ToUpper cm y) ∧
    ((∀ c, cm.toUpper (cm.toUpper c) = cm.toUpper c) →
      ∀ x ∈ normalizedWant cm tmp.Want, ToUpper cm x = x) ∧
    ((∀ c, isSpace c = false → isSpace (cm.toUpper c) = false) →
      ∀ x ∈ normalizedWant cm tmp.Want, TrimSpace x = x ∧
        (∀ c, x.data.head? = some c → isSpace c = false) ∧
        (∀ c, x.data.getLast? = some c → isSpace c = false)) := by
  have hmem : ∀ x ∈ normalizedWant cm tmp.Want,
      ∃ w, TrimSpace w ≠ "" ∧ x = ToUpper cm (TrimSpace w) := by
    intro x hx
    obtain ⟨w, hw, rfl⟩ := List.mem_map.1 hx
    exact ⟨w, by simpa using (List.mem_filter.1 hw).2, rfl⟩
  refine ⟨⟨_, rfl, rfl⟩, ?_, ?_, ?_, ?_⟩
  · have h := filterWant_eq cm tmp.Want
    unfold normalizedWant at h
    simp only [newTextOut, h]
  · intro x hx
    obtain ⟨w, hne, rfl⟩ := hmem x hx
    exact ⟨fun h => hne ((ToUpper_eq_empty cm _).1 h), _, rfl⟩
  · intro hidem x hx
    obtain ⟨w, _, rfl⟩ := hmem x hx
    exact ToUpper_idem cm hidem _
  · intro hsp x hx
    obtain ⟨w, _, rfl⟩ := hmem x hx
    have htrim := TrimSpace_ToUpper cm hsp w
    refine ⟨htrim, ?_, ?_⟩
    · intro c hc
      rw [← htrim, TrimSpace_data] at hc
      exact trimList_head _ c hc
    · intro c hc
      rw [← htrim, TrimSpace_data] at hc
      exact trimList_last _ c hc

/-- The sample tables on the payload " é ", "", "cn", " é ": the want-list is
É, CN, É, and each element is fixed by upper-casing and by trimming. -/
theorem newTextOut_want_normalized_witness :
    normalizedWant sampleTables [" é ", "", "cn", " é "] = ["É", "CN", "É"] ∧
      (∀ x ∈ normalizedWant sampleTables [" é ", "", "cn", " é "],
        ToUpper sampleTables x = x) ∧
      (∀ x ∈ normalizedWant sampleTables [" é ", "", "cn", " é "], TrimSpace x = x) :=
  ⟨by decide,
    (newTextOut_want_normalized sampleTables "output"
      { Want := [" é ", "", "cn", " é "] }).2.2.2.1 sampleTables_toUpper_idem,
    fun x hx => ((newTextOut_want_normalized sampleTables "output"
      { Want := [" é ", "", "cn", " é "] }).2.2.2.2 sampleTables_toUpper_space x hx).1⟩

/-! ## File-system steps -/

theorem MkdirAll_ok {fs fs1 : FileSystem} {path : String} (h : MkdirAll fs path = .ok fs1) :
    fs1.file = fs.file ∧ fs1.denied = fs.denied ∧
      fs1.isDir = (fun p => if p = Clean path then true else fs.isDir p) ∧
      (fs.isDir (Clean path) = true ∨
        (fs.file (Clean path) = none ∧ fs.denied (Clean path) = false)) ∧
      path ≠ "" := by
  unfold MkdirAll at h
  by_cases h0 : path = ""
  · simp [h0] at h
  · simp only [h0, if_false] at h
    cases h1 : fs.isDir (Clean path) with
    | true =>
      simp only [h1, if_true, Except.ok.injEq] at h
      subst h
      refine ⟨rfl, rfl, ?_, Or.inl rfl, h0⟩
      funext p
      by_cases hp : p = Clean path
      · simp [hp, h1]
      · simp [hp]
    | false =>
      cases h2 : fs.file (Clean path) with
      | some x => simp [h1, h2] at h
      | none =>
        cases h3 : fs.denied (Clean path) with
        | true => simp [h1, h2, h3] at h
        | false =>
          simp only [h1, h2, h3, Option.isSome_none, Bool.false_eq_true, if_false,
            Except.ok.injEq] at h
          subst h
          exact ⟨rfl, rfl, rfl, Or.inr ⟨rfl, rfl⟩, h0⟩

theorem WriteFile_ok {fs fs2 : FileSystem} {path data : String}
    (h : WriteFile fs path data = .ok fs2) :
    fs.isDir path = false ∧ fs.denied path = false ∧
      fs2 = { fs with file := fun p => if p = path then some data else fs.file p } := by
  unfold WriteFile at h
  cases h1 : fs.isDir path with
  | true => simp [h1] at h
  | false =>
    cases h2 : fs.denied path with
    | true => simp [h1, h2] at h
    | false =>
      simp only [h1, h2, Bool.false_eq_true, if_false, Except.ok.injEq] at h
      exact ⟨rfl, rfl, h.symm⟩

theorem WriteFile_ok_of {fs : FileSystem} {path : String} (data : String)
    (h1 : fs.isDir path = false) (h2 : fs.denied path = false) :
    WriteFile fs path data
      = .ok { fs with file := fun p => if p = path then some data else fs.file p } := by
  simp [WriteFile, h1, h2]

theorem writeFile_ok {t : textOut} {filename : String} {cidrList : List String} {w w' : World}
    (h : t.writeFile filename cidrList w = (w', none)) :
    ∃ fs1, MkdirAll w.fs t.OutputDir = .ok fs1 ∧
      WriteFile fs1 (filepathJoin [t.OutputDir, filename]) (t.fillBuffer "" cidrList) = .ok w'.fs ∧
      w'.log = w.log ++ [.written t.Typ filename t.OutputDir] := by
  unfold textOut.writeFile at h
  cases hm : MkdirAll w.fs t.OutputDir with
  | error err => simp [hm] at h
  | ok fs1 =>
    simp only [hm] at h
    cases hwf : WriteFile fs1 (filepathJoin [t.OutputDir, filename]) (t.fillBuffer "" cidrList) with
    | error err => simp [hwf] at h
    | ok fs2 =>
      simp only [hwf, Prod.mk.injEq, and_true] at h
      subst h
      exact ⟨fs1, rfl, hwf, rfl⟩

theorem writeFile_err {t : textOut} {filename : String} {cidrList : List String} {w w' : World}
    {err : String} (h : t.writeFile filename cidrList w = (w', some err)) :
    w'.log = w.log ∧ (w'.fs = w.fs ∨ MkdirAll w.fs t.OutputDir = .ok w'.fs) := by
  unfold textOut.writeFile at h
  cases hm : MkdirAll w.fs t.OutputDir with
  | error e =>
    simp only [hm, Prod.mk.injEq] at h
    rw [← h.1]
    exact ⟨rfl, Or.inl rfl⟩
  | ok fs1 =>
    simp only [hm] at h
    cases hwf : WriteFile fs1 (filepathJoin [t.OutputDir, filename]) (t.fillBuffer "" cidrList) with
    | error e =>
      simp only [hwf, Prod.mk.injEq] at h
      rw [← h.1]
      exact ⟨rfl, Or.inr rfl⟩
    | ok fs2 => simp [hwf] at h

/-! ## Line formatting (`writeFile`) -/

theorem fillBuffer_eq (t : textOut) (cidrList : List String) (buf : String) :
    t.fillBuffer buf cidrList = buf ++ String.join (cidrList.map t.specLine) := by
  induction cidrList generalizing buf with
  | nil =>
    apply String.ext
    simp [textOut.fillBuffer]
  | cons cidr rest ih =>
    have hp : (if t.AddPrefixInLine ≠ "" then buf ++ t.AddPrefixInLine else buf)
        = buf ++ t.AddPrefixInLine := by
      by_cases h : t.AddPrefixInLine = ""
      · simp [h]
      · simp [h]
    have hs : ∀ b : String, (if t.AddSuffixInLine ≠ "" then b ++ t.AddSuffixInLine else b)
        = b ++ t.AddSuffixInLine := by
      intro b
      by_cases h : t.AddSuffixInLine = ""
      · simp [h]
      · simp [h]
    simp only [textOut.fillBuffer, hp, hs, ih]
    apply String.ext
    simp [textOut.specLine, String.data_append, List.append_assoc]

theorem stripLine_specLine (t : textOut) (cidr : String) :
    stripLine t.AddPrefixInLine t.AddSuffixInLine (t.specLine cidr) = cidr := by
  apply String.ext
  simp only [stripLine, textOut.specLine, String.data_append, String.length, List.append_assoc,
    List.drop_left, List.rdrop, List.length_append]
  have hl : ("\n" : String).data.length = 1 := rfl
  rw [hl, Nat.add_sub_cancel, List.take_left]

/-- C3: the buffer `writeFile` fills is the concatenation, in list order, of
prefix, CIDR, suffix and newline for each CIDR, empty for the empty list; a
successful `writeFile` leaves exactly that body in the file it targets; and
stripping the prefix and the suffix plus newline from each emitted line gives
back the CIDR list. -/
theorem writeFile_body (t : textOut) (filename : String) (cidrList : List String) (w : World) :
    t.fillBuffer "" cidrList
        = String.join (cidrList.map fun cidr =>
            t.AddPrefixInLine ++ cidr ++ t.AddSuffixInLine ++ "\n") ∧
      t.fillBuffer "" [] = "" ∧
      (∀ w', t.writeFile filename cidrList w = (w', none) →
        w'.fs.file (filepathJoin [t.OutputDir, filename])
          = some (String.join (cidrList.map t.specLine))) ∧
      (cidrList.map t.specLine).map (stripLine t.AddPrefixInLine t.AddSuffixInLine)
        = cidrList := by
  have hbody : t.fillBuffer "" cidrList = String.join (cidrList.map t.specLine) := by
    rw [fillBuffer_eq]
    apply String.ext
    simp
  refine ⟨hbody, rfl, ?_, ?_⟩
  · intro w' hw
    obtain ⟨fs1, _, h2, _⟩ := writeFile_ok hw
    rw [hbody] at h2
    rw [(WriteFile_ok h2).2.2]
    simp
  · rw [List.map_map]
    conv_rhs => rw [← List.map_id cidrList]
    exact List.map_congr_left fun c _ => stripLine_specLine t c

/-! ## Address-family filtering (`marshalText`) -/

/-- C4: for a record whose prefix data is available, `marshalText` with the
filter v4 returns the CIDR strings of exactly the IPv4 prefixes, with the
filter v6 those of exactly the IPv6 prefixes, and with the filter unset those of
all prefixes; each time in the record's prefix order. -/
theorem marshalText_filter (t : textOut) (entry : Entry) (ps : List Prefix)
    (h : entry.prefixes = .ok ps) :
    (t.OnlyIPType = .IPv4 →
      t.marshalText entry = .ok ((ps.filter fun p => !p.isIPv6).map Prefix.cidr)) ∧
    (t.OnlyIPType = .IPv6 →
      t.marshalText entry = .ok ((ps.filter fun p => p.isIPv6).map Prefix.cidr)) ∧
    (t.OnlyIPType = .unset → t.marshalText entry = .ok (ps.map Prefix.cidr)) ∧
    (∀ cidrs, t.marshalText entry = .ok cidrs → cidrs.Sublist (ps.map Prefix.cidr)) := by
  have h4 : t.OnlyIPType = .IPv4 →
      t.marshalText entry = .ok ((ps.filter fun p => !p.isIPv6).map Prefix.cidr) := by
    intro ht
    simp [textOut.marshalText, ht, Entry.MarshalText, h, IgnoreIPOption.drops]
  have h6 : t.OnlyIPType = .IPv6 →
      t.marshalText entry = .ok ((ps.filter fun p => p.isIPv6).map Prefix.cidr) := by
    intro ht
    simp [textOut.marshalText, ht, Entry.MarshalText, h, IgnoreIPOption.drops]
  have h0 : t.OnlyIPType = .unset → t.marshalText entry = .ok (ps.map Prefix.cidr) := by
    intro ht
    simp [textOut.marshalText, ht, Entry.MarshalText, h]
  refine ⟨h4, h6, h0, ?_⟩
  intro cidrs hc
  cases ht : t.OnlyIPType with
  | unset =>
    rw [h0 ht] at hc
    cases hc
    exact List.Sublist.refl _
  | IPv4 =>
    rw [h4 ht] at hc
    cases hc
    exact List.Sublist.map _ (List.filter_sublist _)
  | IPv6 =>
    rw [h6 ht] at hc
    cases hc
    exact List.Sublist.map _ (List.filter_sublist _)

/-- Scenario 2 of the spec, on the marshaller: filter v4 on the record CN keeps
exactly the IPv4 prefix. -/
theorem marshalText_filter_witness :
    (⟨"CN", .ok [⟨false, "2.2.2.0/24"⟩, ⟨true, "fd00::/8"⟩]⟩ : Entry).prefixes
        = .ok [⟨false, "2.2.2.0/24"⟩, ⟨true, "fd00::/8"⟩] ∧
      (sampleOut ["CN"] .IPv4 "" "").marshalText
        ⟨"CN", .ok [⟨false, "2.2.2.0/24"⟩, ⟨true, "fd00::/8"⟩]⟩ = .ok ["2.2.2.0/24"] :=
  ⟨rfl, (marshalText_filter (sampleOut ["CN"] .IPv4 "" "")
    ⟨"CN", .ok [⟨false, "2.2.2.0/24"⟩, ⟨true, "fd00::/8"⟩]⟩ _ rfl).1 rfl⟩

/-! ## Lookup in the collection -/

theorem GetEntry_some {c : Container} {name : String} {entry : Entry}
    (h : c.GetEntry name = some entry) : entry ∈ c ∧ entry.GetName = name := by
  unfold Container.GetEntry at h
  refine ⟨List.mem_of_find?_eq_some h, ?_⟩
  have := List.find?_some h
  simpa [Entry.GetName] using this

theorem GetEntry_eq_none {c : Container} {name : String} :
    c.GetEntry name = none ↔ name ∉ c.names := by
  unfold Container.GetEntry Container.names Container.Loop
  rw [List.find?_eq_none]
  simp only [List.mem_map, not_exists, not_and, beq_iff_eq, Entry.GetName]

theorem GetEntry_of_mem {c : Container} {entry : Entry} (h : entry ∈ c) :
    ∃ e, c.GetEntry entry.GetName = some e := by
  cases hg : c.GetEntry entry.GetName with
  | some e => exact ⟨e, rfl⟩
  | none =>
    exfalso
    exact GetEntry_eq_none.1 hg (List.mem_map.2 ⟨entry, h, rfl⟩)

theorem GetEntry_perm {c₁ c₂ : Container} (hp : c₁.Perm c₂) (hn : c₁.names.Nodup)
    (name : String) : c₁.GetEntry name = c₂.GetEntry name := by
  have hnames : c₁.names.Perm c₂.names := hp.map _
  cases h1 : c₁.GetEntry name with
  | none =>
    have : name ∉ c₂.names := fun hm => GetEntry_eq_none.1 h1 (hnames.mem_iff.2 hm)
    exact (GetEntry_eq_none.2 this).symm
  | some e₁ =>
    cases h2 : c₂.GetEntry name with
    | none =>
      exfalso
      have hm := GetEntry_some h1
      exact GetEntry_eq_none.1 h2 (hnames.mem_iff.1 (List.mem_map.2 ⟨e₁, hm.1, hm.2⟩))
    | some e₂ =>
      have hm1 := GetEntry_some h1
      have hm2 := GetEntry_some h2
      have he : e₁ = e₂ :=
        List.inj_on_of_nodup_map hn hm1.1 (hp.mem_iff.2 hm2.1) (hm1.2.trans hm2.2.symm)
      rw [he]

/-! ## The loop of `Output` -/

theorem outputLoop_congr (cm : CaseTables) (t : textOut) {c₁ c₂ : Container}
    (h : ∀ name, c₁.GetEntry name = c₂.GetEntry name) (names : List String) (w : World) :
    t.outputLoop cm c₁ names w = t.outputLoop cm c₂ names w := by
  induction names generalizing w with
  | nil => rfl
  | cons name rest ih =>
    simp only [textOut.outputLoop, h name, ih]

theorem applyWrites_of_not_mem (W : List (String × String)) (f : String → Option String)
    (p : String) (h : p ∉ W.map Prod.fst) : applyWrites W f p = f p := by
  induction W generalizing f with
  | nil => rfl
  | cons x rest ih =>
    obtain ⟨q, b⟩ := x
    simp only [List.map_cons, List.mem_cons, not_or] at h
    simp only [applyWrites]
    rw [ih _ h.2]
    simp [h.1]

theorem applyWrites_of_mem (W : List (String × String)) (f g : String → Option String)
    (p : String) (h : p ∈ W.map Prod.fst) : applyWrites W f p = applyWrites W g p := by
  induction W generalizing f g with
  | nil => simp at h
  | cons x rest ih =>
    obtain ⟨q, b⟩ := x
    simp only [applyWrites]
    by_cases hr : p ∈ rest.map Prod.fst
    · exact ih _ _ hr
    · have hpq : p = q := by
        simp only [List.map_cons, List.mem_cons] at h
        rcases h with h | h
        · exact h
        · exact absurd h hr
      rw [applyWrites_of_not_mem _ _ _ hr, applyWrites_of_not_mem _ _ _ hr]
      simp [hpq]

theorem applyWrites_idem (W : List (String × String)) (f : String → Option String) :
    applyWrites W (applyWrites W f) = applyWrites W f := by
  funext p
  by_cases h : p ∈ W.map Prod.fst
  · exact applyWrites_of_mem W _ _ p h
  · exact applyWrites_of_not_mem W _ p h

theorem applyWrites_some (W : List (String × String)) (f : String → Option String)
    (p : String) (h : p ∈ W.map Prod.fst) : ∃ b, (p, b) ∈ W ∧ applyWrites W f p = some b := by
  induction W generalizing f with
  | nil => simp at h
  | cons x rest ih =>
    obtain ⟨q, b⟩ := x
    simp only [applyWrites]
    by_cases hr : p ∈ rest.map Prod.fst
    · obtain ⟨b', hb, he⟩ := ih _ hr
      exact ⟨b', List.mem_cons_of_mem _ hb, he⟩
    · have hpq : p = q := by
        simp only [List.map_cons, List.mem_cons] at h
        rcases h with h | h
        · exact h
        · exact absurd h hr
      refine ⟨b, ?_, ?_⟩
      · rw [hpq]
        exact List.mem_cons_self _ _
      · rw [applyWrites_of_not_mem _ _ _ hr]
        simp [hpq]

theorem outputLoop_cons_none (t : textOut) {c : Container} {name : String}
    (rest : List String) (w : World) (h : c.GetEntry name = none) :
    t.outputLoop cm c (name :: rest) w
      = t.outputLoop cm c rest { w with log := w.log ++ [.notFound name] } := by
  simp only [textOut.outputLoop, h]

theorem outputLoop_cons_marshal_err (t : textOut) {c : Container} {name : String} {entry : Entry}
    {err : String} (rest : List String) (w : World) (h : c.GetEntry name = some entry)
    (hm : t.marshalText entry = .error err) :
    t.outputLoop cm c (name :: rest) w = (w, some err) := by
  simp only [textOut.outputLoop, h, hm]

theorem outputLoop_cons_write_err (t : textOut) {c : Container} {name : String} {entry : Entry}
    {cidrList : List String} {err : String} (rest : List String) {w w1 : World}
    (h : c.GetEntry name = some entry) (hm : t.marshalText entry = .ok cidrList)
    (hw : t.writeFile (ToLower cm entry.GetName ++ ".txt") cidrList w = (w1, some err)) :
    t.outputLoop cm c (name :: rest) w = (w1, some err) := by
  simp only [textOut.outputLoop, h, hm, hw]

theorem outputLoop_cons_write_ok (t : textOut) {c : Container} {name : String} {entry : Entry}
    {cidrList : List String} (rest : List String) {w w1 : World}
    (h : c.GetEntry name = some entry) (hm : t.marshalText entry = .ok cidrList)
    (hw : t.writeFile (ToLower cm entry.GetName ++ ".txt") cidrList w = (w1, none)) :
    t.outputLoop cm c (name :: rest) w = t.outputLoop cm c rest w1 := by
  simp only [textOut.outputLoop, h, hm, hw]

/-- What one successful `writeFile` does to the world. -/
theorem writeFile_ok_effect {t : textOut} {filename : String} {cidrList : List String}
    {w w1 : World} (hw : t.writeFile filename cidrList w = (w1, none)) :
    w1.log = w.log ++ [.written t.Typ filename t.OutputDir] ∧
      w1.fs.file = (fun p => if p = filepathJoin [t.OutputDir, filename]
        then some (t.fillBuffer "" cidrList) else w.fs.file p) ∧
      w1.fs.denied = w.fs.denied ∧
      w1.fs.isDir = (fun p => if p = (Clean t.OutputDir) then true else w.fs.isDir p) ∧
      w1.fs.isDir (filepathJoin [t.OutputDir, filename]) = false ∧
      w.fs.denied (filepathJoin [t.OutputDir, filename]) = false ∧
      t.OutputDir ≠ "" := by
  obtain ⟨fs1, h1, h2, h3⟩ := writeFile_ok hw
  obtain ⟨m1, m2, m3, _, m5⟩ := MkdirAll_ok h1
  obtain ⟨k1, k2, k3⟩ := WriteFile_ok h2
  rw [k3]
  refine ⟨h3, ?_, m2, m3, ?_, ?_, m5⟩
  · simp only [m1]
  · simpa using k1
  · rw [← m2]
    exact k2

theorem outputLoop_ok (t : textOut) (c : Container) :
    ∀ (names : List String) (w w' : World), t.outputLoop cm c names w = (w', none) →
      w'.log = w.log ++ names.map (t.event cm c) ∧
      w'.fs.file = applyWrites (t.writes cm c names) w.fs.file ∧
      w'.fs.denied = w.fs.denied ∧
      (∀ p, w.fs.isDir p = true → w'.fs.isDir p = true) ∧
      (∀ p, w'.fs.isDir p = true → w.fs.isDir p = true ∨ p = (Clean t.OutputDir)) ∧
      (t.writes cm c names).map Prod.fst
        = names.filterMap (fun n => (c.GetEntry n).map (t.target cm)) ∧
      (∀ n ∈ names, ∀ e, c.GetEntry n = some e →
        w'.fs.isDir (Clean t.OutputDir) = true ∧ ∃ cidrs, t.marshalText e = .ok cidrs) := by
  intro names
  induction names with
  | nil =>
    intro w w' h
    simp only [textOut.outputLoop, Prod.mk.injEq, and_true] at h
    subst h
    refine ⟨by simp, rfl, rfl, fun _ hp => hp, fun _ hp => Or.inl hp, rfl, ?_⟩
    intro n hn
    simp at hn
  | cons name rest ih =>
    intro w w' h
    cases hg : c.GetEntry name with
    | none =>
      rw [outputLoop_cons_none t rest w hg] at h
      obtain ⟨i1, i2, i3, i4, i5, i6, i7⟩ := ih _ _ h
      refine ⟨?_, ?_, i3, i4, i5, ?_, ?_⟩
      · rw [i1]
        simp [textOut.event, hg]
      · rw [i2]
        simp only [textOut.writes, hg]
      · simp only [textOut.writes, hg, List.filterMap_cons, Option.map_none']
        exact i6
      · intro n hn e he
        rcases List.mem_cons.1 hn with rfl | hn
        · rw [hg] at he
          cases he
        · exact i7 n hn e he
    | some entry =>
      cases hm : t.marshalText entry with
      | error err =>
        rw [outputLoop_cons_marshal_err t rest w hg hm] at h
        simp at h
      | ok cidrList =>
        cases hw : t.writeFile (ToLower cm entry.GetName ++ ".txt") cidrList w with
        | mk w1 r =>
          cases r with
          | some err =>
            rw [outputLoop_cons_write_err t rest hg hm hw] at h
            simp at h
          | none =>
            rw [outputLoop_cons_write_ok t rest hg hm hw] at h
            obtain ⟨i1, i2, i3, i4, i5, i6, i7⟩ := ih _ _ h
            obtain ⟨e1, e2, e3, e4, _, _⟩ := writeFile_ok_effect hw
            have hD : w1.fs.isDir (Clean t.OutputDir) = true := by
              rw [e4]
              simp
            refine ⟨?_, ?_, i3.trans e3, ?_, ?_, ?_, ?_⟩
            · rw [i1, e1]
              simp [textOut.event, hg]
            · rw [i2, e2]
              simp only [textOut.writes, hg, hm, applyWrites, textOut.target]
            · intro p hp
              apply i4
              rw [e4]
              by_cases hpd : p = (Clean t.OutputDir)
              · simp [hpd]
              · simpa [hpd] using hp
            · intro p hp
              rcases i5 p hp with h1 | h1
              · rw [e4] at h1
                by_cases hpd : p = (Clean t.OutputDir)
                · exact Or.inr hpd
                · left
                  simpa [hpd] using h1
              · exact Or.inr h1
            · simp only [textOut.writes, hg, hm, List.map_cons, List.filterMap_cons,
                Option.map_some', i6]
            · intro n hn e he
              rcases List.mem_cons.1 hn with rfl | hn
              · rw [hg] at he
                cases he
                exact ⟨i4 _ hD, cidrList, hm⟩
              · exact i7 n hn e he

theorem marshalText_want (t : textOut) (want : List String) (entry : Entry) :
    ({ t with Want := want } : textOut).marshalText entry = t.marshalText entry := rfl

theorem fillBuffer_want (t : textOut) (want : List String) (cidrList : List String)
    (buf : String) :
    ({ t with Want := want } : textOut).fillBuffer buf cidrList = t.fillBuffer buf cidrList := by
  induction cidrList generalizing buf with
  | nil => rfl
  | cons cidr rest ih => simp only [textOut.fillBuffer, ih]

theorem writeFile_want (t : textOut) (want : List String) (filename : String)
    (cidrList : List String) (w : World) :
    ({ t with Want := want } : textOut).writeFile filename cidrList w
      = t.writeFile filename cidrList w := by
  simp only [textOut.writeFile, fillBuffer_want]

theorem outputLoop_want (cm : CaseTables) (t : textOut) (want : List String) (c : Container)
    (names : List String) (w : World) :
    ({ t with Want := want } : textOut).outputLoop cm c names w = t.outputLoop cm c names w := by
  induction names generalizing w with
  | nil => rfl
  | cons name rest ih =>
    simp only [textOut.outputLoop, ih, marshalText_want, writeFile_want]

theorem outputLoop_append (t : textOut) (c : Container) (pre post : List String) :
    ∀ (w w1 : World), t.outputLoop cm c pre w = (w1, none) →
      t.outputLoop cm c (pre ++ post) w = t.outputLoop cm c post w1 := by
  induction pre with
  | nil =>
    intro w w1 h
    simp only [textOut.outputLoop, Prod.mk.injEq, and_true] at h
    subst h
    rfl
  | cons name rest ih =>
    intro w w1 h
    rw [List.cons_append]
    cases hg : c.GetEntry name with
    | none =>
      rw [outputLoop_cons_none t rest w hg] at h
      rw [outputLoop_cons_none t (rest ++ post) w hg]
      exact ih _ _ h
    | some entry =>
      cases hm : t.marshalText entry with
      | error err =>
        rw [outputLoop_cons_marshal_err t rest w hg hm] at h
        simp at h
      | ok cidrList =>
        cases hw : t.writeFile (ToLower cm entry.GetName ++ ".txt") cidrList w with
        | mk w2 r =>
          cases r with
          | some err =>
            rw [outputLoop_cons_write_err t rest hg hm hw] at h
            simp at h
          | none =>
            rw [outputLoop_cons_write_ok t rest hg hm hw] at h
            rw [outputLoop_cons_write_ok t (rest ++ post) hg hm hw]
            exact ih _ _ h

theorem outputLoop_none_found (t : textOut) (c : Container) :
    ∀ (names : List String) (w : World), (∀ n ∈ names, c.GetEntry n = none) →
      t.outputLoop cm c names w
        = ({ w with log := w.log ++ names.map LogLine.notFound }, none) := by
  intro names
  induction names with
  | nil =>
    intro w _
    simp [textOut.outputLoop]
  | cons name rest ih =>
    intro w h
    rw [outputLoop_cons_none t rest w (h name (List.mem_cons_self _ _))]
    rw [ih _ fun n hn => h n (List.mem_cons_of_mem _ hn)]
    simp

theorem outputLoop_err (t : textOut) (c : Container) :
    ∀ (names : List String) (w w' : World) (err : String),
      t.outputLoop cm c names w = (w', some err) →
      ∃ n ∈ names, ∃ e, c.GetEntry n = some e ∧
        (t.marshalText e = .error err ∨
          ∃ cidrs w0 w1, t.marshalText e = .ok cidrs ∧
            t.writeFile (ToLower cm e.GetName ++ ".txt") cidrs w0 = (w1, some err)) := by
  intro names
  induction names with
  | nil =>
    intro w w' err h
    simp [textOut.outputLoop] at h
  | cons name rest ih =>
    intro w w' err h
    cases hg : c.GetEntry name with
    | none =>
      rw [outputLoop_cons_none t rest w hg] at h
      obtain ⟨n, hn, e, he, hr⟩ := ih _ _ _ h
      exact ⟨n, List.mem_cons_of_mem _ hn, e, he, hr⟩
    | some entry =>
      cases hm : t.marshalText entry with
      | error err0 =>
        rw [outputLoop_cons_marshal_err t rest w hg hm] at h
        simp only [Prod.mk.injEq, Option.some.injEq] at h
        refine ⟨name, List.mem_cons_self _ _, entry, hg, Or.inl ?_⟩
        rw [hm, h.2]
      | ok cidrList =>
        cases hw : t.writeFile (ToLower cm entry.GetName ++ ".txt") cidrList w with
        | mk w2 r =>
          cases r with
          | some err0 =>
            rw [outputLoop_cons_write_err t rest hg hm hw] at h
            simp only [Prod.mk.injEq, Option.some.injEq] at h
            refine ⟨name, List.mem_cons_self _ _, entry, hg, Or.inr ⟨cidrList, w, w2, hm, ?_⟩⟩
            rw [hw, h.2]
          | none =>
            rw [outputLoop_cons_write_ok t rest hg hm hw] at h
            obtain ⟨n, hn, e, he, hr⟩ := ih _ _ _ h
            exact ⟨n, List.mem_cons_of_mem _ hn, e, he, hr⟩

theorem outputLoop_frame (t : textOut) (c : Container) :
    ∀ (names : List String) (w : World),
      (t.outputLoop cm c names w).1.fs.denied = w.fs.denied ∧
      (∀ p, w.fs.isDir p = true → (t.outputLoop cm c names w).1.fs.isDir p = true) ∧
      (∀ p, (w.fs.file p).isSome = true → ((t.outputLoop cm c names w).1.fs.file p).isSome = true) ∧
      (∀ p, (∀ n ∈ names, ∀ e, c.GetEntry n = some e → p ≠ t.target cm e) →
        (t.outputLoop cm c names w).1.fs.file p = w.fs.file p) := by
  intro names
  induction names with
  | nil =>
    intro w
    simp [textOut.outputLoop]
  | cons name rest ih =>
    intro w
    cases hg : c.GetEntry name with
    | none =>
      rw [outputLoop_cons_none t rest w hg]
      obtain ⟨i1, i2, i3, i4⟩ := ih { w with log := w.log ++ [.notFound name] }
      exact ⟨i1, i2, i3, fun p hp => i4 p fun n hn e he => hp n (List.mem_cons_of_mem _ hn) e he⟩
    | some entry =>
      cases hm : t.marshalText entry with
      | error err =>
        rw [outputLoop_cons_marshal_err t rest w hg hm]
        exact ⟨rfl, fun _ h => h, fun _ h => h, fun _ _ => rfl⟩
      | ok cidrList =>
        cases hw : t.writeFile (ToLower cm entry.GetName ++ ".txt") cidrList w with
        | mk w1 r =>
          cases r with
          | some err =>
            rw [outputLoop_cons_write_err t rest hg hm hw]
            rcases (writeFile_err hw).2 with h1 | h1
            · have e : (w1, some err).1.fs = w.fs := h1
              exact ⟨by rw [e], fun p hp => by rw [e]; exact hp,
                fun p hp => by rw [e]; exact hp, fun p _ => by rw [e]⟩
            · obtain ⟨m1, m2, m3, _⟩ := MkdirAll_ok h1
              refine ⟨m2, ?_, ?_, ?_⟩
              · intro p hp
                show w1.fs.isDir p = true
                rw [m3]
                by_cases hpd : p = (Clean t.OutputDir)
                · simp [hpd]
                · simpa [hpd] using hp
              · intro p hp
                show (w1.fs.file p).isSome = true
                rw [m1]
                exact hp
              · intro p _
                show w1.fs.file p = w.fs.file p
                rw [m1]
          | none =>
            rw [outputLoop_cons_write_ok t rest hg hm hw]
            obtain ⟨i1, i2, i3, i4⟩ := ih w1
            obtain ⟨_, e2, e3, e4, _, _⟩ := writeFile_ok_effect hw
            refine ⟨i1.trans e3, ?_, ?_, ?_⟩
            · intro p hp
              apply i2
              rw [e4]
              by_cases hpd : p = (Clean t.OutputDir)
              · simp [hpd]
              · simpa [hpd] using hp
            · intro p hp
              apply i3
              rw [e2]
              by_cases hpt : p = filepathJoin [t.OutputDir, ToLower cm entry.GetName ++ ".txt"]
              · simp [hpt]
              · simpa [hpt] using hp
            · intro p hp
              rw [i4 p fun n hn e he => hp n (List.mem_cons_of_mem _ hn) e he, e2]
              have hne : p ≠ t.target cm entry := hp name (List.mem_cons_self _ _) entry hg
              simp only [textOut.target] at hne
              simp [hne]

/-! ## Running the loop again -/

theorem FileSystem.eq_of {a b : FileSystem} (h1 : a.isDir = b.isDir) (h2 : a.file = b.file)
    (h3 : a.denied = b.denied) : a = b := by
  cases a
  cases b
  simp only at h1 h2 h3
  subst h1 h2 h3
  rfl

theorem writeFile_replay (t : textOut) (filename : String) (cidrList : List String) {u : World}
    (hne : t.OutputDir ≠ "") (hD : u.fs.isDir (Clean t.OutputDir) = true)
    (h1 : u.fs.isDir (filepathJoin [t.OutputDir, filename]) = false)
    (h2 : u.fs.denied (filepathJoin [t.OutputDir, filename]) = false) :
    ∃ u1, t.writeFile filename cidrList u = (u1, none) ∧ u1.fs.isDir = u.fs.isDir ∧
      u1.fs.denied = u.fs.denied ∧
      u1.fs.file = (fun p => if p = filepathJoin [t.OutputDir, filename]
        then some (t.fillBuffer "" cidrList) else u.fs.file p) := by
  have hm : MkdirAll u.fs t.OutputDir = .ok u.fs := by simp [MkdirAll, hD, hne]
  have hres : t.writeFile filename cidrList u
      = (⟨⟨u.fs.isDir, (fun p => if p = filepathJoin [t.OutputDir, filename]
            then some (t.fillBuffer "" cidrList) else u.fs.file p), u.fs.denied⟩,
          u.log ++ [.written t.Typ filename t.OutputDir]⟩, none) := by
    simp only [textOut.writeFile, hm, WriteFile_ok_of _ h1 h2]
  exact ⟨_, hres, rfl, rfl, rfl⟩

theorem outputLoop_replay (t : textOut) (c : Container) :
    ∀ (names : List String) (s s' u : World), t.outputLoop cm c names s = (s', none) →
      u.fs.isDir (Clean t.OutputDir) = true → u.fs.denied = s.fs.denied →
      (∀ p, u.fs.isDir p = true → s.fs.isDir p = true ∨ p = (Clean t.OutputDir)) →
      ∃ u', t.outputLoop cm c names u = (u', none) ∧ u'.fs.isDir = u.fs.isDir ∧
        u'.fs.denied = u.fs.denied ∧
        u'.fs.file = applyWrites (t.writes cm c names) u.fs.file := by
  intro names
  induction names with
  | nil =>
    intro s s' u _ _ _ _
    exact ⟨u, rfl, rfl, rfl, rfl⟩
  | cons name rest ih =>
    intro s s' u h hD hden hdir
    cases hg : c.GetEntry name with
    | none =>
      rw [outputLoop_cons_none t rest s hg] at h
      rw [outputLoop_cons_none t rest u hg]
      obtain ⟨u', r1, r2, r3, r4⟩ :=
        ih _ _ { u with log := u.log ++ [.notFound name] } h hD hden hdir
      refine ⟨u', r1, r2, r3, ?_⟩
      rw [r4]
      simp only [textOut.writes, hg]
    | some entry =>
      cases hm : t.marshalText entry with
      | error err =>
        rw [outputLoop_cons_marshal_err t rest s hg hm] at h
        simp at h
      | ok cidrList =>
        cases hw : t.writeFile (ToLower cm entry.GetName ++ ".txt") cidrList s with
        | mk s1 r =>
          cases r with
          | some err =>
            rw [outputLoop_cons_write_err t rest hg hm hw] at h
            simp at h
          | none =>
            rw [outputLoop_cons_write_ok t rest hg hm hw] at h
            obtain ⟨_, _, e3, e4, e5, e6, e7⟩ := writeFile_ok_effect hw
            have hpath : u.fs.isDir (filepathJoin [t.OutputDir, ToLower cm entry.GetName ++ ".txt"])
                = false := by
              cases hu : u.fs.isDir (filepathJoin [t.OutputDir, ToLower cm entry.GetName ++ ".txt"]) with
              | false => rfl
              | true =>
                exfalso
                rw [e4] at e5
                rcases hdir _ hu with h1 | h1
                · by_cases hpd : filepathJoin [t.OutputDir, ToLower cm entry.GetName ++ ".txt"]
                      = (Clean t.OutputDir)
                  · simp [hpd] at e5
                  · simp [hpd, h1] at e5
                · simp [h1] at e5
            have hden2 : u.fs.denied (filepathJoin [t.OutputDir, ToLower cm entry.GetName ++ ".txt"])
                = false := by
              rw [hden]
              exact e6
            obtain ⟨u1, hwu, q1, q2, q3⟩ :=
              writeFile_replay t (ToLower cm entry.GetName ++ ".txt") cidrList e7 hD hpath hden2
            rw [outputLoop_cons_write_ok t rest hg hm hwu]
            have hD1 : u1.fs.isDir (Clean t.OutputDir) = true := by rw [q1]; exact hD
            have hden1 : u1.fs.denied = s1.fs.denied := by rw [q2, hden, e3]
            have hdir1 : ∀ p, u1.fs.isDir p = true → s1.fs.isDir p = true ∨ p = (Clean t.OutputDir) := by
              intro p hp
              rw [q1] at hp
              rcases hdir p hp with h1 | h1
              · by_cases hpd : p = (Clean t.OutputDir)
                · exact Or.inr hpd
                · left
                  rw [e4]
                  simpa [hpd] using h1
              · exact Or.inr h1
            obtain ⟨u', r1, r2, r3, r4⟩ := ih s1 s' u1 h hD1 hden1 hdir1
            refine ⟨u', r1, r2.trans q1, r3.trans q2, ?_⟩
            rw [r4, q3]
            simp only [textOut.writes, hg, hm, applyWrites, textOut.target]

theorem outputLoop_again (t : textOut) (c : Container) (names : List String) (w w' : World)
    (h : t.outputLoop cm c names w = (w', none)) :
    ∃ w'', t.outputLoop cm c names w' = (w'', none) ∧ w''.fs = w'.fs := by
  obtain ⟨_, i2, i3, _, i5, _, i7⟩ := outputLoop_ok t c names w w' h
  by_cases hf : ∀ n ∈ names, c.GetEntry n = none
  · exact ⟨_, outputLoop_none_found t c names w' hf, rfl⟩
  · have hD : w'.fs.isDir (Clean t.OutputDir) = true := by
      by_contra hD
      apply hf
      intro n hn
      cases hg : c.GetEntry n with
      | none => rfl
      | some e => exact absurd (i7 n hn e hg).1 hD
    obtain ⟨u', r1, r2, r3, r4⟩ := outputLoop_replay t c names w w' w' h hD i3 i5
    refine ⟨u', r1, FileSystem.eq_of r2 ?_ r3⟩
    rw [r4, i2, applyWrites_idem]

/-! ## `Output` as one loop over the sorted selection -/

theorem Output_eq (t : textOut) (c : Container) (w : World) :
    t.Output cm c w
      = ({ t with Want := slicesSort t.Want }, t.outputLoop cm c (slicesSort (t.selected c)) w) := by
  obtain ⟨ty, ac, de, od, want, ip, pre, suf⟩ := t
  cases want with
  | nil => rfl
  | cons x xs =>
    have h1 := outputLoop_want cm ⟨ty, ac, de, od, x :: xs, ip, pre, suf⟩ (slicesSort (x :: xs)) c
      (slicesSort (x :: xs)) w
    have h2 : (x :: xs = []) = False := by simp
    simp only [textOut.Output, textOut.selected, h2, if_false]
    exact congrArg _ h1

theorem writtenFiles_append (l₁ l₂ : List LogLine) :
    writtenFiles (l₁ ++ l₂) = writtenFiles l₁ ++ writtenFiles l₂ := by
  induction l₁ with
  | nil => rfl
  | cons x rest ih =>
    cases x with
    | notFound n => simpa [writtenFiles] using ih
    | written a b d => simpa [writtenFiles] using ih

theorem writtenFiles_events (t : textOut) (c : Container) (names : List String) :
    writtenFiles (names.map (t.event cm c))
      = names.filterMap fun n => (c.GetEntry n).map fun _ => ToLower cm n ++ ".txt" := by
  induction names with
  | nil => rfl
  | cons n rest ih =>
    cases hg : c.GetEntry n with
    | none => simp [textOut.event, hg, writtenFiles, ih]
    | some e =>
      have hn := (GetEntry_some hg).2
      simp [textOut.event, hg, writtenFiles, ih, hn]

theorem writes_mem (t : textOut) (c : Container) (names : List String) (p b : String)
    (h : (p, b) ∈ t.writes cm c names) :
    ∃ n ∈ names, ∃ e cidrs, c.GetEntry n = some e ∧ t.marshalText e = .ok cidrs ∧
      p = t.target cm e ∧ b = t.fillBuffer "" cidrs := by
  induction names with
  | nil => simp [textOut.writes] at h
  | cons name rest ih =>
    cases hg : c.GetEntry name with
    | none =>
      simp only [textOut.writes, hg] at h
      obtain ⟨n, hn, r⟩ := ih h
      exact ⟨n, List.mem_cons_of_mem _ hn, r⟩
    | some entry =>
      cases hm : t.marshalText entry with
      | error err =>
        simp only [textOut.writes, hg, hm] at h
        obtain ⟨n, hn, r⟩ := ih h
        exact ⟨n, List.mem_cons_of_mem _ hn, r⟩
      | ok cidrList =>
        simp only [textOut.writes, hg, hm, List.mem_cons, Prod.mk.injEq] at h
        rcases h with ⟨h1, h2⟩ | h
        · exact ⟨name, List.mem_cons_self _ _, entry, cidrList, hg, hm, h1, h2⟩
        · obtain ⟨n, hn, r⟩ := ih h
          exact ⟨n, List.mem_cons_of_mem _ hn, r⟩

/-- After a successful loop, the file of every record found holds the body of a
record of the run that has the same target path. -/
theorem outputLoop_file_of_found (t : textOut) (c : Container) (names : List String)
    (w w' : World) (h : t.outputLoop cm c names w = (w', none)) (n : String) (hn : n ∈ names)
    (e : Entry) (he : c.GetEntry n = some e) :
    ∃ n' ∈ names, ∃ e' cidrs, c.GetEntry n' = some e' ∧ t.marshalText e' = .ok cidrs ∧
      t.target cm e' = t.target cm e ∧ w'.fs.file (t.target cm e) = some (t.fillBuffer "" cidrs) := by
  obtain ⟨_, i2, _, _, _, i6, _⟩ := outputLoop_ok t c names w w' h
  have hmem : t.target cm e ∈ (t.writes cm c names).map Prod.fst := by
    rw [i6, List.mem_filterMap]
    exact ⟨n, hn, by simp [he]⟩
  obtain ⟨b, hb, hfile⟩ := applyWrites_some _ w.fs.file _ hmem
  obtain ⟨n', hn', e', cidrs, g1, g2, g3, g4⟩ := writes_mem t c names _ _ hb
  refine ⟨n', hn', e', cidrs, g1, g2, g3.symm, ?_⟩
  rw [i2, hfile, g4]

theorem Output_snd (t : textOut) (c : Container) (w : World) :
    (t.Output cm c w).2 = t.outputLoop cm c (slicesSort (t.selected c)) w := by
  rw [Output_eq]

theorem selected_of_ne {t : textOut} (c : Container) (h : t.Want ≠ []) :
    t.selected c = t.Want := by
  simp [textOut.selected, h]

theorem selected_of_eq {t : textOut} (c : Container) (h : t.Want = []) :
    t.selected c = c.names := by
  simp [textOut.selected, h]

theorem target_of_GetEntry (t : textOut) {c : Container} {n : String} {e : Entry}
    (h : c.GetEntry n = some e) :
    t.target cm e = filepathJoin [t.OutputDir, ToLower cm n ++ ".txt"] := by
  rw [textOut.target, (GetEntry_some h).2]

/-! ## Where an error comes from -/

/-- A run of the loop that returns an error went through the names before some
name without error, found the record of that name, and got the error from
converting that record or from writing its file in the world reached there. -/
theorem outputLoop_err_split (t : textOut) (c : Container) :
    ∀ (names : List String) (w w' : World) (err : String),
      t.outputLoop cm c names w = (w', some err) →
      ∃ pre n post e w0, names = pre ++ n :: post ∧ c.GetEntry n = some e ∧
        t.outputLoop cm c pre w = (w0, none) ∧
        ((t.marshalText e = .error err ∧ w' = w0) ∨
          ∃ cidrs, t.marshalText e = .ok cidrs ∧
            t.writeFile (ToLower cm n ++ ".txt") cidrs w0 = (w', some err)) := by
  intro names
  induction names with
  | nil =>
    intro w w' err h
    simp [textOut.outputLoop] at h
  | cons name rest ih =>
    intro w w' err h
    cases hg : c.GetEntry name with
    | none =>
      rw [outputLoop_cons_none t rest w hg] at h
      obtain ⟨pre, n, post, e, w0, h1, h2, h3, h4⟩ := ih _ _ _ h
      refine ⟨name :: pre, n, post, e, w0, by rw [h1]; rfl, h2, ?_, h4⟩
      rw [outputLoop_cons_none t pre w hg]
      exact h3
    | some entry =>
      have hname : entry.GetName = name := (GetEntry_some hg).2
      cases hm : t.marshalText entry with
      | error err0 =>
        rw [outputLoop_cons_marshal_err t rest w hg hm] at h
        simp only [Prod.mk.injEq, Option.some.injEq] at h
        refine ⟨[], name, rest, entry, w, rfl, hg, rfl, Or.inl ⟨?_, h.1.symm⟩⟩
        rw [hm, h.2]
      | ok cidrList =>
        cases hw : t.writeFile (ToLower cm entry.GetName ++ ".txt") cidrList w with
        | mk w2 r =>
          cases r with
          | some err0 =>
            rw [outputLoop_cons_write_err t rest hg hm hw] at h
            simp only [Prod.mk.injEq, Option.some.injEq] at h
            refine ⟨[], name, rest, entry, w, rfl, hg, rfl, Or.inr ⟨cidrList, hm, ?_⟩⟩
            rw [← hname, hw, h.1, h.2]
          | none =>
            rw [outputLoop_cons_write_ok t rest hg hm hw] at h
            obtain ⟨pre, n, post, e, w0, h1, h2, h3, h4⟩ := ih _ _ _ h
            refine ⟨name :: pre, n, post, e, w0, by rw [h1]; rfl, h2, ?_, h4⟩
            rw [outputLoop_cons_write_ok t pre hg hm hw]
            exact h3

/-- The error and the file system `writeFile` leaves depend on the world only
through its file system. -/
theorem writeFile_fs (t : textOut) (filename : String) (cidrList : List String)
    (w w2 : World) (h : w.fs = w2.fs) :
    (t.writeFile filename cidrList w).2 = (t.writeFile filename cidrList w2).2 ∧
      (t.writeFile filename cidrList w).1.fs = (t.writeFile filename cidrList w2).1.fs := by
  simp only [textOut.writeFile, h]
  cases MkdirAll w2.fs t.OutputDir with
  | error err => exact ⟨rfl, h⟩
  | ok fs1 =>
    dsimp only
    cases WriteFile fs1 (filepathJoin [t.OutputDir, filename]) (t.fillBuffer "" cidrList) with
    | error err => exact ⟨rfl, rfl⟩
    | ok fs2 => exact ⟨rfl, rfl⟩

/-- The names without a record are absorbed: the loop returns the same result
and leaves the same file system as the loop over the names that have a record. -/
theorem outputLoop_found_only (t : textOut) (c : Container) :
    ∀ (names : List String) (w w2 : World), w.fs = w2.fs →
      (t.outputLoop cm c names w).2
          = (t.outputLoop cm c (names.filter fun n => (c.GetEntry n).isSome) w2).2 ∧
        (t.outputLoop cm c names w).1.fs
          = (t.outputLoop cm c (names.filter fun n => (c.GetEntry n).isSome) w2).1.fs := by
  intro names
  induction names with
  | nil =>
    intro w w2 h
    exact ⟨rfl, h⟩
  | cons name rest ih =>
    intro w w2 h
    cases hg : c.GetEntry name with
    | none =>
      rw [outputLoop_cons_none t rest w hg]
      have hf : (List.filter (fun n => (c.GetEntry n).isSome) (name :: rest))
          = List.filter (fun n => (c.GetEntry n).isSome) rest := by
        simp [List.filter_cons, hg]
      rw [hf]
      exact ih _ w2 h
    | some entry =>
      have hf : (List.filter (fun n => (c.GetEntry n).isSome) (name :: rest))
          = name :: List.filter (fun n => (c.GetEntry n).isSome) rest := by
        simp [List.filter_cons, hg]
      rw [hf]
      cases hm : t.marshalText entry with
      | error err =>
        rw [outputLoop_cons_marshal_err t rest w hg hm,
          outputLoop_cons_marshal_err t _ w2 hg hm]
        exact ⟨rfl, h⟩
      | ok cidrList =>
        obtain ⟨q1, q2⟩ := writeFile_fs t (ToLower cm entry.GetName ++ ".txt") cidrList w w2 h
        cases hw : t.writeFile (ToLower cm entry.GetName ++ ".txt") cidrList w with
        | mk a r =>
          cases hw2 : t.writeFile (ToLower cm entry.GetName ++ ".txt") cidrList w2 with
          | mk a2 r2 =>
            rw [hw, hw2] at q1 q2
            simp only at q1 q2
            subst q1
            cases r with
            | some err =>
              rw [outputLoop_cons_write_err t rest hg hm hw,
                outputLoop_cons_write_err t _ hg hm hw2]
              exact ⟨rfl, q2⟩
            | none =>
              rw [outputLoop_cons_write_ok t rest hg hm hw,
                outputLoop_cons_write_ok t _ hg hm hw2]
              exact ih a a2 q2

/-! ## Selection by the want-list -/

/-- C1: with a non-empty want-list, a run of `Output` that returns nil has gone
through the wanted names in ascending order, logging a write of
`<lower-cased name>.txt` for each wanted name that has a record and a miss for
each that has none, and the file of every wanted name with a record then holds
the body of a wanted record of that path.  Whatever the run returns, every
path that is not the file of a wanted name with a record keeps its content, and
the result and the file system are those of the loop over the wanted names that
have a record, so a missing name never causes an error: an error comes from
converting or writing the record of a wanted name, after the names before it
went through.  When no wanted name has a record the run returns nil and writes
nothing. -/
theorem Output_wanted (cm : CaseTables) (t : textOut) (c : Container) (w : World)
    (hW : t.Want ≠ []) :
    ((t.Output cm c w).2.2 = none →
      (t.Output cm c w).2.1.log = w.log ++ (slicesSort t.Want).map (t.event cm c) ∧
        writtenFiles (t.Output cm c w).2.1.log
          = writtenFiles w.log ++ (slicesSort t.Want).filterMap
              (fun n => (c.GetEntry n).map fun _ => ToLower cm n ++ ".txt") ∧
        (∀ n ∈ t.Want, ∀ e, c.GetEntry n = some e →
          ∃ n' ∈ t.Want, ∃ e' cidrs, c.GetEntry n' = some e' ∧
            t.marshalText e' = .ok cidrs ∧
            filepathJoin [t.OutputDir, ToLower cm n' ++ ".txt"]
              = filepathJoin [t.OutputDir, ToLower cm n ++ ".txt"] ∧
            (t.Output cm c w).2.1.fs.file (filepathJoin [t.OutputDir, ToLower cm n ++ ".txt"])
              = some (t.fillBuffer "" cidrs))) ∧
    (∀ p, (∀ n ∈ t.Want, c.GetEntry n ≠ none →
          p ≠ filepathJoin [t.OutputDir, ToLower cm n ++ ".txt"]) →
      (t.Output cm c w).2.1.fs.file p = w.fs.file p) ∧
    ((t.Output cm c w).2.2
        = (t.outputLoop cm c ((slicesSort t.Want).filter fun n => (c.GetEntry n).isSome) w).2 ∧
      (t.Output cm c w).2.1.fs
        = (t.outputLoop cm c ((slicesSort t.Want).filter fun n => (c.GetEntry n).isSome) w).1.fs) ∧
    (∀ err, (t.Output cm c w).2.2 = some err →
      ∃ pre n post e w0, slicesSort t.Want = pre ++ n :: post ∧ c.GetEntry n = some e ∧
        t.outputLoop cm c pre w = (w0, none) ∧
        ((t.marshalText e = .error err ∧ (t.Output cm c w).2.1 = w0) ∨
          ∃ cidrs, t.marshalText e = .ok cidrs ∧
            t.writeFile (ToLower cm n ++ ".txt") cidrs w0
              = ((t.Output cm c w).2.1, some err))) ∧
    ((∀ n ∈ t.Want, c.GetEntry n = none) →
      (t.Output cm c w).2.2 = none ∧ (t.Output cm c w).2.1.fs = w.fs ∧
        writtenFiles (t.Output cm c w).2.1.log = writtenFiles w.log) := by
  rw [Output_snd, selected_of_ne c hW]
  refine ⟨?_, ?_, ?_, ?_, ?_⟩
  · intro hok
    have hr : t.outputLoop cm c (slicesSort t.Want) w
        = ((t.outputLoop cm c (slicesSort t.Want) w).1, none) := Prod.ext rfl hok
    obtain ⟨i1, _, _, _, _, _, _⟩ := outputLoop_ok t c _ w _ hr
    refine ⟨i1, ?_, ?_⟩
    · rw [i1, writtenFiles_append, writtenFiles_events]
    · intro n hn e he
      obtain ⟨n', hn', e', cidrs, g1, g2, g3, g4⟩ :=
        outputLoop_file_of_found t c _ w _ hr n (mem_slicesSort.2 hn) e he
      rw [target_of_GetEntry t he] at g3 g4
      rw [target_of_GetEntry t g1] at g3
      exact ⟨n', mem_slicesSort.1 hn', e', cidrs, g1, g2, g3, g4⟩
  · intro p hp
    apply (outputLoop_frame t c (slicesSort t.Want) w).2.2.2 p
    intro n hn e he
    rw [target_of_GetEntry t he]
    exact hp n (mem_slicesSort.1 hn) (by rw [he]; simp)
  · exact outputLoop_found_only t c (slicesSort t.Want) w w rfl
  · intro err herr
    have hr : t.outputLoop cm c (slicesSort t.Want) w
        = ((t.outputLoop cm c (slicesSort t.Want) w).1, some err) := Prod.ext rfl herr
    exact outputLoop_err_split t c _ w _ err hr
  · intro hnone
    rw [outputLoop_none_found t c (slicesSort t.Want) w
      fun n hn => hnone n (mem_slicesSort.1 hn)]
    refine ⟨rfl, rfl, ?_⟩
    show writtenFiles (w.log ++ _) = _
    rw [writtenFiles_append]
    have : ∀ l : List String, writtenFiles (l.map LogLine.notFound) = [] := by
      intro l
      induction l with
      | nil => rfl
      | cons x xs ih => simpa [writtenFiles] using ih
    rw [this, List.append_nil]

/-- Scenarios 2 and 3 of the spec together: the want-list JP, CN on the sample
collection, which has no JP; the run returns nil, writes `cn.txt` only, logs
the miss for JP, and leaves the path of `jp.txt` as it was. -/
theorem Output_wanted_witness :
    (sampleOut ["JP", "CN"] .unset "" "").Want ≠ [] ∧
      ((sampleOut ["JP", "CN"] .unset "" "").Output sampleTables sampleContainer emptyWorld).2.2
        = none ∧
      ((sampleOut ["JP", "CN"] .unset "" "").Output sampleTables sampleContainer emptyWorld).2.1.log
        = [.written "text" "cn.txt" "out", .notFound "JP"] ∧
      writtenFiles
          ((sampleOut ["JP", "CN"] .unset "" "").Output sampleTables sampleContainer
            emptyWorld).2.1.log
        = ["cn.txt"] ∧
      ((sampleOut ["JP", "CN"] .unset "" "").Output sampleTables sampleContainer
          emptyWorld).2.1.fs.file "out/jp.txt" = none :=
  ⟨by decide, by decide,
    ((Output_wanted sampleTables (sampleOut ["JP", "CN"] .unset "" "") sampleContainer emptyWorld
      (by decide)).1 (by decide)).1.trans (by decide),
    ((Output_wanted sampleTables (sampleOut ["JP", "CN"] .unset "" "") sampleContainer emptyWorld
      (by decide)).1 (by decide)).2.1.trans (by decide),
    (Output_wanted sampleTables (sampleOut ["JP", "CN"] .unset "" "") sampleContainer emptyWorld
      (by decide)).2.1 "out/jp.txt" (by decide)⟩

/-! ## Emitting the whole collection -/

theorem filterMap_found (c : Container) (names : List String) (h : ∀ n ∈ names, n ∈ c.names) :
    (names.filterMap fun n => (c.GetEntry n).map fun _ => ToLower cm n ++ ".txt")
      = names.map fun n => ToLower cm n ++ ".txt" := by
  induction names with
  | nil => rfl
  | cons n rest ih =>
    cases hg : c.GetEntry n with
    | none => exact absurd (h n (List.mem_cons_self _ _)) (GetEntry_eq_none.1 hg)
    | some e =>
      simp only [List.filterMap_cons, hg, Option.map_some', List.map_cons]
      rw [ih fun m hm => h m (List.mem_cons_of_mem _ hm)]

/-- C2: with an empty want-list, a run of `Output` that returns nil has written
one file per record, in ascending order of the record names, each named by the
lower-cased record name followed by ".txt"; the written names are exactly the
lower-cased names of the records plus ".txt", the file of every record exists
afterwards with the body of a record of that target, and a record with no
prefix converts to the empty list, whose body is empty, so it gets its file
too.  When distinct records have distinct target paths, each file holds the
body of its own record. -/
theorem Output_all (cm : CaseTables) (t : textOut) (c : Container) (w : World) (hW : t.Want = [])
    (hok : (t.Output cm c w).2.2 = none) :
    writtenFiles (t.Output cm c w).2.1.log
        = writtenFiles w.log ++ (slicesSort c.names).map (fun n => ToLower cm n ++ ".txt") ∧
      ((slicesSort c.names).map fun n => ToLower cm n ++ ".txt").length = c.length ∧
      (∀ f, f ∈ ((slicesSort c.names).map fun n => ToLower cm n ++ ".txt")
          ↔ ∃ e ∈ c, f = ToLower cm e.GetName ++ ".txt") ∧
      (∀ e ∈ c, ∃ e' ∈ c, ∃ cidrs, t.marshalText e' = .ok cidrs ∧ t.target cm e' = t.target cm e ∧
          (t.Output cm c w).2.1.fs.file (filepathJoin [t.OutputDir, ToLower cm e.GetName ++ ".txt"])
            = some (t.fillBuffer "" cidrs)) ∧
      (∀ e : Entry, e.prefixes = .ok [] →
          t.marshalText e = .ok [] ∧ t.fillBuffer "" [] = "") ∧
      ((∀ e₁ ∈ c, ∀ e₂ ∈ c, t.target cm e₁ = t.target cm e₂ → e₁ = e₂) →
        ∀ e ∈ c, ∃ cidrs, t.marshalText e = .ok cidrs ∧
          (t.Output cm c w).2.1.fs.file (filepathJoin [t.OutputDir, ToLower cm e.GetName ++ ".txt"])
            = some (t.fillBuffer "" cidrs)) := by
  rw [Output_snd, selected_of_eq c hW] at hok ⊢
  have hr : t.outputLoop cm c (slicesSort c.names) w
      = ((t.outputLoop cm c (slicesSort c.names) w).1, none) := Prod.ext rfl hok
  obtain ⟨i1, _, _, _, _, _, _⟩ := outputLoop_ok t c _ w _ hr
  have hfiles : ∀ e ∈ c, ∃ e' ∈ c, ∃ cidrs, t.marshalText e' = .ok cidrs ∧
      t.target cm e' = t.target cm e ∧
      (t.outputLoop cm c (slicesSort c.names) w).1.fs.file
          (filepathJoin [t.OutputDir, ToLower cm e.GetName ++ ".txt"])
        = some (t.fillBuffer "" cidrs) := by
    intro e he
    obtain ⟨e0, he0⟩ := GetEntry_of_mem he
    have hn : e.GetName ∈ slicesSort c.names :=
      mem_slicesSort.2 (List.mem_map.2 ⟨e, he, rfl⟩)
    obtain ⟨n', _, e', cidrs, g1, g2, g3, g4⟩ :=
      outputLoop_file_of_found t c _ w _ hr e.GetName hn e0 he0
    have ht : t.target cm e0 = t.target cm e := by
      rw [textOut.target, textOut.target, (GetEntry_some he0).2]
    refine ⟨e', (GetEntry_some g1).1, cidrs, g2, g3.trans ht, ?_⟩
    rw [ht] at g4
    exact g4
  refine ⟨?_, ?_, ?_, hfiles, ?_, ?_⟩
  · rw [i1, writtenFiles_append, writtenFiles_events,
      filterMap_found c _ fun n hn => mem_slicesSort.1 hn]
  · rw [List.length_map, (slicesSort_perm c.names).length_eq]
    simp [Container.names, Container.Loop]
  · intro f
    simp only [List.mem_map, mem_slicesSort, Container.names, Container.Loop]
    constructor
    · rintro ⟨n, ⟨e, he, rfl⟩, rfl⟩
      exact ⟨e, he, rfl⟩
    · rintro ⟨e, he, rfl⟩
      exact ⟨e.GetName, ⟨e, he, rfl⟩, rfl⟩
  · intro e he
    refine ⟨?_, rfl⟩
    cases hip : t.OnlyIPType <;>
      simp [textOut.marshalText, hip, Entry.MarshalText, he]
  · intro hinj e he
    obtain ⟨e', he', cidrs, g1, g2, g3⟩ := hfiles e he
    rw [hinj e' he' e he g2] at g1
    exact ⟨cidrs, g1, g3⟩

/-- Scenario 1 of the spec: the whole sample collection is written as `cn.txt`
and `us.txt`, in that order. -/
theorem Output_all_witness :
    (sampleOut [] .unset "" "").Want = [] ∧
      ((sampleOut [] .unset "" "").Output sampleTables sampleContainer emptyWorld).2.2 = none ∧
      writtenFiles ((sampleOut [] .unset "" "").Output sampleTables sampleContainer emptyWorld).2.1.log
        = ["cn.txt", "us.txt"] :=
  ⟨rfl, by decide,
    (Output_all sampleTables (sampleOut [] .unset "" "") sampleContainer emptyWorld rfl (by decide)).1.trans
      (by decide)⟩

/-! ## The converter after a run -/

/-- C6, as stated, fails: a run over the want-list US, CN leaves the converter
with the want-list CN, US. -/
theorem Output_reorders_want :
    ((sampleOut ["US", "CN"] .unset "" "").Output sampleTables sampleContainer emptyWorld).1
      ≠ sampleOut ["US", "CN"] .unset "" "" := by
  decide

/-- C6, amended: a run of `Output` changes no field of the converter other
than the want-list, and leaves the want-list sorted ascending with the same
elements; a want-list that is already ascending, the empty one included, is
left as it is. -/
theorem Output_converter (cm : CaseTables) (t : textOut) (c : Container) (w : World) :
    (t.Output cm c w).1 = { t with Want := slicesSort t.Want } ∧
      (t.Output cm c w).1.Want.Sorted strLE ∧
      (t.Output cm c w).1.Want.Perm t.Want ∧
      (t.Want.Sorted strLE → (t.Output cm c w).1 = t) := by
  rw [Output_eq]
  refine ⟨rfl, slicesSort_sorted _, slicesSort_perm _, ?_⟩
  intro hs
  have h : slicesSort t.Want = t.Want := List.Sorted.insertionSort_eq hs
  show ({ t with Want := slicesSort t.Want } : textOut) = t
  rw [h]

/-! ## Independence of the enumeration order -/

/-- C9: for two enumerations of one collection (permutations of each other,
names pairwise distinct) `Output` gives the same converter, the same world
(file system and log) and the same result; the run is the loop over a list of
names that is ascending and a rearrangement of the selected names, and on
success the log lines follow that list. -/
theorem Output_enumeration_order (cm : CaseTables) (t : textOut) (c₁ c₂ : Container) (w : World)
    (hp : c₁.Perm c₂) (hn : c₁.names.Nodup) :
    t.Output cm c₁ w = t.Output cm c₂ w ∧
      ∃ names : List String, names.Sorted strLE ∧ names.Perm (t.selected c₁) ∧
        (t.Output cm c₁ w).2 = t.outputLoop cm c₁ names w ∧
        (t.Output cm c₂ w).2 = t.outputLoop cm c₂ names w ∧
        ((t.Output cm c₁ w).2.2 = none →
          (t.Output cm c₁ w).2.1.log = w.log ++ names.map (t.event cm c₁)) := by
  have hsel : slicesSort (t.selected c₁) = slicesSort (t.selected c₂) := by
    apply slicesSort_eq_of_perm
    unfold textOut.selected
    by_cases hW : t.Want = []
    · simp only [hW, if_true]
      exact hp.map _
    · simp only [hW, if_false]
      exact List.Perm.refl _
  have hloop := outputLoop_congr cm t (GetEntry_perm hp hn) (slicesSort (t.selected c₁)) w
  refine ⟨?_, slicesSort (t.selected c₁), slicesSort_sorted _, slicesSort_perm _,
    Output_snd t c₁ w, ?_, ?_⟩
  · rw [Output_eq, Output_eq, ← hsel, hloop]
  · rw [Output_snd, ← hsel]
  · intro hok
    rw [Output_snd] at hok ⊢
    have hr : t.outputLoop cm c₁ (slicesSort (t.selected c₁)) w
        = ((t.outputLoop cm c₁ (slicesSort (t.selected c₁)) w).1, none) := Prod.ext rfl hok
    exact (outputLoop_ok t c₁ _ w _ hr).1

/-- The sample collection enumerated in its two orders gives the same run. -/
theorem Output_enumeration_order_witness :
    sampleContainer.Perm sampleContainer.reverse ∧ sampleContainer.names.Nodup ∧
      (sampleOut [] .unset "" "").Output sampleTables sampleContainer emptyWorld
        = (sampleOut [] .unset "" "").Output sampleTables sampleContainer.reverse emptyWorld :=
  ⟨(List.reverse_perm _).symm, by decide,
    (Output_enumeration_order sampleTables (sampleOut [] .unset "" "") sampleContainer
      sampleContainer.reverse emptyWorld (List.reverse_perm _).symm (by decide)).1⟩

/-! ## Running `Output` twice -/

theorem selected_sorted (t : textOut) (c : Container) :
    slicesSort (({ t with Want := slicesSort t.Want } : textOut).selected c)
      = slicesSort (t.selected c) := by
  unfold textOut.selected
  by_cases hW : t.Want = []
  · have hs : slicesSort ([] : List String) = [] := rfl
    simp only [hW, hs, if_true]
  · have hs : slicesSort t.Want ≠ [] := by
      intro h0
      apply hW
      have := (slicesSort_perm t.Want).length_eq
      rw [h0] at this
      exact List.length_eq_zero.1 this.symm
    simp only [hW, hs, if_false]
    exact slicesSort_idem _

/-- C7: when a run of `Output` returns nil, a second run against the same
collection on the world the first run left returns nil as well and leaves the
file system exactly as the first run left it; this holds for the converter as
it was configured and for the converter as the first run left it. -/
theorem Output_idempotent (cm : CaseTables) (t : textOut) (c : Container) (w : World)
    (hok : (t.Output cm c w).2.2 = none) :
    (t.Output cm c (t.Output cm c w).2.1).2.2 = none ∧
      (t.Output cm c (t.Output cm c w).2.1).2.1.fs = (t.Output cm c w).2.1.fs ∧
      ((t.Output cm c w).1.Output cm c (t.Output cm c w).2.1).2.2 = none ∧
      ((t.Output cm c w).1.Output cm c (t.Output cm c w).2.1).2.1.fs = (t.Output cm c w).2.1.fs := by
  have h1 : (t.Output cm c w).1 = { t with Want := slicesSort t.Want } := by rw [Output_eq]
  rw [h1]
  simp only [Output_snd, selected_sorted, outputLoop_want] at hok ⊢
  have hr : t.outputLoop cm c (slicesSort (t.selected c)) w
      = ((t.outputLoop cm c (slicesSort (t.selected c)) w).1, none) := Prod.ext rfl hok
  obtain ⟨w'', h2, h3⟩ := outputLoop_again t c _ w _ hr
  rw [h2]
  exact ⟨rfl, h3, rfl, h3⟩

/-- The sample collection written twice. -/
theorem Output_idempotent_witness :
    ((sampleOut [] .unset "" "").Output sampleTables sampleContainer emptyWorld).2.2 = none ∧
      ((sampleOut [] .unset "" "").Output sampleTables sampleContainer
          ((sampleOut [] .unset "" "").Output sampleTables sampleContainer emptyWorld).2.1).2.2 = none ∧
      ((sampleOut [] .unset "" "").Output sampleTables sampleContainer
          ((sampleOut [] .unset "" "").Output sampleTables sampleContainer emptyWorld).2.1).2.1.fs
        = ((sampleOut [] .unset "" "").Output sampleTables sampleContainer emptyWorld).2.1.fs :=
  ⟨by decide,
    (Output_idempotent sampleTables (sampleOut [] .unset "" "") sampleContainer emptyWorld (by decide)).1,
    (Output_idempotent sampleTables (sampleOut [] .unset "" "") sampleContainer emptyWorld (by decide)).2.1⟩

/-! ## A failing conversion -/

/-- C8: when the names before `name` in the ascending selection went through
the loop without error and the record of `name` fails to convert, `Output`
returns that error and the world is the one the earlier names left: their log
lines and their files are there, and every path that is not the file of an
earlier record, so the file of the failing record and of the later ones, has the
content it had before the run. -/
theorem Output_marshal_error (cm : CaseTables) (t : textOut) (c : Container) (w w1 : World)
    (pre post : List String) (name : String) (entry : Entry) (err : String)
    (hsel : slicesSort (t.selected c) = pre ++ name :: post)
    (hg : c.GetEntry name = some entry)
    (hm : t.marshalText entry = .error err)
    (hpre : t.outputLoop cm c pre w = (w1, none)) :
    (t.Output cm c w).2 = (w1, some err) ∧
      writtenFiles w1.log = writtenFiles w.log ++
        pre.filterMap (fun n => (c.GetEntry n).map fun _ => ToLower cm n ++ ".txt") ∧
      (∀ n ∈ pre, ∀ e, c.GetEntry n = some e →
        ((t.Output cm c w).2.1.fs.file (filepathJoin [t.OutputDir, ToLower cm n ++ ".txt"])).isSome
          = true) ∧
      (∀ p, (∀ n ∈ pre, ∀ e, c.GetEntry n = some e →
            p ≠ filepathJoin [t.OutputDir, ToLower cm n ++ ".txt"]) →
        (t.Output cm c w).2.1.fs.file p = w.fs.file p) := by
  have hres : (t.Output cm c w).2 = (w1, some err) := by
    rw [Output_snd, hsel, outputLoop_append t c pre (name :: post) w w1 hpre]
    exact outputLoop_cons_marshal_err t post w1 hg hm
  obtain ⟨i1, _, _, _, _, _, _⟩ := outputLoop_ok t c pre w w1 hpre
  rw [hres]
  refine ⟨rfl, ?_, ?_, ?_⟩
  · rw [i1, writtenFiles_append, writtenFiles_events]
  · intro n hn e he
    obtain ⟨_, _, _, _, _, _, _, hfile⟩ := outputLoop_file_of_found t c pre w w1 hpre n hn e he
    show (w1.fs.file _).isSome = true
    rw [← target_of_GetEntry t he, hfile]
    rfl
  · intro p hp
    have hf := (outputLoop_frame t c pre w).2.2.2 p (by
      intro n hn e he
      rw [target_of_GetEntry t he]
      exact hp n hn e he)
    rw [hpre] at hf
    exact hf

/-- The record B of the failing collection stops the run after `a.txt`. -/
theorem Output_marshal_error_witness :
    slicesSort ((sampleOut [] .unset "" "").selected failingContainer) = ["A"] ++ "B" :: ["C"] ∧
      failingContainer.GetEntry "B" = some ⟨"B", .error "malformed prefix"⟩ ∧
      (sampleOut [] .unset "" "").marshalText ⟨"B", .error "malformed prefix"⟩
        = .error "malformed prefix" ∧
      ((sampleOut [] .unset "" "").Output sampleTables failingContainer emptyWorld).2
        = (((sampleOut [] .unset "" "").outputLoop sampleTables failingContainer ["A"] emptyWorld).1,
            some "malformed prefix") :=
  ⟨by decide, by decide, by decide,
    (Output_marshal_error sampleTables (sampleOut [] .unset "" "") failingContainer emptyWorld
      ((sampleOut [] .unset "" "").outputLoop sampleTables failingContainer ["A"] emptyWorld).1
      ["A"] ["C"] "B" ⟨"B", .error "malformed prefix"⟩ "malformed prefix"
      (by decide) (by decide) (by decide) (Prod.ext rfl (by decide))).1⟩

/-! ## What a run leaves alone -/

/-- C10: after a run of `Output`, whatever it returns, every directory and
every file that existed still exists, and every path that is not the file of a
record selected in the run has the content it had; a successful `writeFile`
leaves exactly the new body at its path, whatever was there, and touches no
other file; and after a run that returns nil the file of every selected record
holds exactly the body of a selected record of that path. -/
theorem Output_frame (cm : CaseTables) (t : textOut) (c : Container) (w : World) :
    (∀ p, w.fs.isDir p = true → (t.Output cm c w).2.1.fs.isDir p = true) ∧
      (∀ p, (w.fs.file p).isSome = true → ((t.Output cm c w).2.1.fs.file p).isSome = true) ∧
      (∀ p, (∀ n ∈ t.selected c, ∀ e, c.GetEntry n = some e →
            p ≠ filepathJoin [t.OutputDir, ToLower cm e.GetName ++ ".txt"]) →
        (t.Output cm c w).2.1.fs.file p = w.fs.file p) ∧
      (∀ filename cidrs w0 w1, t.writeFile filename cidrs w0 = (w1, none) →
        w1.fs.file (filepathJoin [t.OutputDir, filename]) = some (t.fillBuffer "" cidrs) ∧
          ∀ p, p ≠ filepathJoin [t.OutputDir, filename] → w1.fs.file p = w0.fs.file p) ∧
      ((t.Output cm c w).2.2 = none →
        ∀ n ∈ t.selected c, ∀ e, c.GetEntry n = some e →
          ∃ n' ∈ t.selected c, ∃ e' cidrs, c.GetEntry n' = some e' ∧
            t.marshalText e' = .ok cidrs ∧ t.target cm e' = t.target cm e ∧
            (t.Output cm c w).2.1.fs.file (t.target cm e) = some (t.fillBuffer "" cidrs)) := by
  rw [Output_snd]
  obtain ⟨_, f2, f3, f4⟩ := outputLoop_frame t c (slicesSort (t.selected c)) w
  refine ⟨f2, f3, ?_, ?_, ?_⟩
  · intro p hp
    exact f4 p fun n hn e he => hp n (mem_slicesSort.1 hn) e he
  · intro filename cidrs w0 w1 hw
    obtain ⟨_, e2, _, _, _, _⟩ := writeFile_ok_effect hw
    rw [e2]
    refine ⟨by simp, ?_⟩
    intro p hp
    simp [hp]
  · intro hok n hn e he
    have hr : t.outputLoop cm c (slicesSort (t.selected c)) w
        = ((t.outputLoop cm c (slicesSort (t.selected c)) w).1, none) := Prod.ext rfl hok
    obtain ⟨n', hn', r⟩ :=
      outputLoop_file_of_found t c _ w _ hr n (mem_slicesSort.2 hn) e he
    exact ⟨n', mem_slicesSort.1 hn', r⟩

/-! ## The scenarios of the spec, evaluated -/

/-- Scenario 1: the whole collection, no filter, no decoration. -/
theorem scenario_all :
    ((sampleOut [] .unset "" "").Output sampleTables sampleContainer emptyWorld).2.2 = none ∧
      ((sampleOut [] .unset "" "").Output sampleTables sampleContainer emptyWorld).2.1.fs.file "out/cn.txt"
        = some "2.2.2.0/24\nfd00::/8\n" ∧
      ((sampleOut [] .unset "" "").Output sampleTables sampleContainer emptyWorld).2.1.fs.file "out/us.txt"
        = some "1.1.1.0/24\n" := by
  decide

/-- Scenario 2: only CN, only IPv4. -/
theorem scenario_wanted_v4 :
    ((sampleOut ["CN"] .IPv4 "" "").Output sampleTables sampleContainer emptyWorld).2.2 = none ∧
      ((sampleOut ["CN"] .IPv4 "" "").Output sampleTables sampleContainer emptyWorld).2.1.log
        = [.written "text" "cn.txt" "out"] ∧
      ((sampleOut ["CN"] .IPv4 "" "").Output sampleTables sampleContainer emptyWorld).2.1.fs.file "out/cn.txt"
        = some "2.2.2.0/24\n" ∧
      ((sampleOut ["CN"] .IPv4 "" "").Output sampleTables sampleContainer emptyWorld).2.1.fs.file "out/us.txt"
        = none := by
  decide

/-- Scenario 4: every line decorated with a prefix and a suffix. -/
theorem scenario_decorated :
    ((sampleOut ["US"] .unset "route " ";").Output sampleTables sampleContainer emptyWorld).2.1.fs.file
        "out/us.txt" = some "route 1.1.1.0/24;\n" := by
  decide

/-- The failing collection: `a.txt` is written, nothing for B and C. -/
theorem scenario_failing :
    ((sampleOut [] .unset "" "").Output sampleTables failingContainer emptyWorld).2.2
        = some "malformed prefix" ∧
      ((sampleOut [] .unset "" "").Output sampleTables failingContainer emptyWorld).2.1.fs.file "out/a.txt"
        = some "1.1.1.0/24\n" ∧
      ((sampleOut [] .unset "" "").Output sampleTables failingContainer emptyWorld).2.1.fs.file "out/b.txt"
        = none ∧
      ((sampleOut [] .unset "" "").Output sampleTables failingContainer emptyWorld).2.1.fs.file "out/c.txt"
        = none := by
  decide

/-- The payload of a configuration, normalised. -/
theorem scenario_config :
    (newTextOut sampleTables "output" (.decoded { Want := [" cn ", "", "  ", "us", "cn"] })).toOption.map
        (fun t => (t.OutputDir, t.Want))
      = some ("output/text", ["CN", "US", "CN"]) := by
  decide

/-- An output directory spelled `./out`: the file written is `out/us.txt`, and
its old content is replaced. -/
theorem scenario_cleaned_directory :
    ({ sampleOut ["US"] .unset "" "" with OutputDir := "./out" } : textOut).target sampleTables
        ⟨"US", .ok []⟩ = "out/us.txt" ∧
      (({ sampleOut ["US"] .unset "" "" with OutputDir := "./out" } : textOut).Output
          sampleTables sampleContainer oldWorld).2.2 = none ∧
      (({ sampleOut ["US"] .unset "" "" with OutputDir := "./out" } : textOut).Output
          sampleTables sampleContainer oldWorld).2.1.fs.file "out/us.txt"
        = some "1.1.1.0/24\n" := by
  decide

/-- Names outside ASCII and names with path elements: É is written as `é.txt`,
and the record `../ESC` is written next to the output directory, as `esc.txt`. -/
theorem scenario_odd_names :
    ((sampleOut [] .unset "" "").Output sampleTables oddContainer emptyWorld).2.1.log
        = [.written "text" "../esc.txt" "out", .written "text" "é.txt" "out"] ∧
      ((sampleOut [] .unset "" "").Output sampleTables oddContainer emptyWorld).2.1.fs.file
        "out/é.txt" = some "3.3.3.0/24\n" ∧
      ((sampleOut [] .unset "" "").Output sampleTables oddContainer emptyWorld).2.1.fs.file
        "esc.txt" = some "4.4.4.0/24\n" := by
  decide

/-- Two records whose lower-cased names coincide: both are written to `k.txt`,
the later one last. -/
theorem scenario_shared_file :
    writtenFiles ((sampleOut [] .unset "" "").Output sampleTables kelvinContainer
        emptyWorld).2.1.log = ["k.txt", "k.txt"] ∧
      ((sampleOut [] .unset "" "").Output sampleTables kelvinContainer emptyWorld).2.1.fs.file
        "out/k.txt" = some "2.2.2.0/24\n" := by
  decide

end Plaintext
